import Mathlib

/-!
Verification of `nestdictutils` (nested-dictionary utilities,
`nestdictutils/utils.py`).

A Python nested dictionary is modelled as a finitely-branching tree:
a node is either a leaf (a non-dict value, modelled by a natural
number) or a branch (a dict, modelled as an association list of
key/subtree pairs keeping insertion order, the order a Python dict
iterates in).  Keys are modelled by natural numbers.  Python's
in-place dict mutations are rendered functionally: `d[k] = v`
becomes `setKey`, `del d[k]` becomes `delKey`, and an in-place
recursive mutation of `d[k]` becomes `setKey` with the recursively
computed subtree.  Exceptions are modelled with `Except`.
A second, heap-based model (`HVal`, `Heap`) appears further below for
the claims that concern aliasing and deep copies, where Python object
identity matters.
-/

namespace NestDictUtils

mutual

inductive Tree where
  | leaf : Nat → Tree
  | branch : Entries → Tree
deriving DecidableEq, Repr

inductive Entries where
  | nil : Entries
  | cons : Nat → Tree → Entries → Entries
deriving DecidableEq, Repr

end

/-- List-style induction for `Entries`, for lemmas that never look
into the stored subtrees. -/
theorem Entries.list_induction {motive : Entries → Prop}
    (hnil : motive .nil)
    (hcons : ∀ k v rest, motive rest → motive (.cons k v rest)) :
    ∀ es, motive es
  | .nil => hnil
  | .cons k v rest => hcons k v rest (Entries.list_induction hnil hcons rest)

mutual

/-- Mutual structural induction, tree side. -/
theorem tree_ind {mt : Tree → Prop} {me : Entries → Prop}
    (hleaf : ∀ n, mt (.leaf n)) (hbranch : ∀ es, me es → mt (.branch es))
    (hnil : me .nil)
    (hcons : ∀ k v rest, mt v → me rest → me (.cons k v rest)) :
    ∀ t, mt t
  | .leaf n => hleaf n
  | .branch es => hbranch es (entries_ind hleaf hbranch hnil hcons es)

/-- Mutual structural induction, entries side. -/
theorem entries_ind {mt : Tree → Prop} {me : Entries → Prop}
    (hleaf : ∀ n, mt (.leaf n)) (hbranch : ∀ es, me es → mt (.branch es))
    (hnil : me .nil)
    (hcons : ∀ k v rest, mt v → me rest → me (.cons k v rest)) :
    ∀ es, me es
  | .nil => hnil
  | .cons k v rest =>
      hcons k v rest (tree_ind hleaf hbranch hnil hcons v)
        (entries_ind hleaf hbranch hnil hcons rest)

end

/-- Concatenation of two association lists (used only to state and
prove theorems about the building fold; not part of the source). -/
def Entries.append : Entries → Entries → Entries
  | .nil, fs => fs
  | .cons k v rest, fs => .cons k v (Entries.append rest fs)

/-- `k in d.keys()`: membership of a key in a dict. -/
def hasKey : Entries → Nat → Bool
  | .nil, _ => false
  | .cons k' _ rest, k => k' = k || hasKey rest k

/-- `d[k]` lookup, returning the value stored at key `k` if any. -/
def lookupKey : Entries → Nat → Option Tree
  | .nil, _ => none
  | .cons k' v' rest, k => if k' = k then some v' else lookupKey rest k

/-- `d[k] = v`: replace the value at `k` in place (keeping its
position, as a Python dict does) or append the pair at the end if
`k` is new. -/
def setKey : Entries → Nat → Tree → Entries
  | .nil, k, v => .cons k v .nil
  | .cons k' v' rest, k, v =>
      if k' = k then .cons k v rest else .cons k' v' (setKey rest k v)

/-- `del d[k]`: drop the entry stored at key `k`. -/
def delKey : Entries → Nat → Entries
  | .nil, _ => .nil
  | .cons k' v' rest, k =>
      if k' = k then rest else .cons k' v' (delKey rest k)

/-! Well-formedness of the embedding: keys inside any one dict are
unique (guaranteed by Python dict semantics, an invariant of the
representation rather than of the source algorithms). -/

mutual

def wfT : Tree → Bool
  | .leaf _ => true
  | .branch es => wfE es

def wfE : Entries → Bool
  | .nil => true
  | .cons k v rest => !(hasKey rest k) && wfT v && wfE rest

end

/-! ## `recursive_get_values_from_key` (utils.py lines 37-104)

`recursive_step(d, key, values)` first appends `d[key]` when `key` is
present, then scans the items of `d` and recurses into every value
that is itself a dict.  The accumulator list passed by reference is
rendered as the returned list. -/

mutual

/-- The body of `recursive_step`: one call on a dict `d`. -/
def gvStep : Tree → Nat → List Tree
  | .leaf _, _ => []
  | .branch es, key =>
      (match lookupKey es key with
       | some w => [w]
       | none => []) ++ gvScan es key

/-- The `for k, val in d.items()` loop of `recursive_step`: recurse
into each value that is a dict. -/
def gvScan : Entries → Nat → List Tree
  | .nil, _ => []
  | .cons _ v rest, key =>
      (match v with
       | .branch _ => gvStep v key
       | .leaf _ => []) ++ gvScan rest key

end

/-- `recursive_get_values_from_key(d, key)`. -/
def recursive_get_values_from_key (d : Tree) (key : Nat) : List Tree :=
  gvStep d key

/-! ## `recursive_iter_key_paths` (utils.py lines 228-287)

For every item `(key, val)` of the current dict the generator first
yields (recursively) every key path found inside `val` when `val` is
a dict, and then yields `(key_path + [key], val)` itself. -/

mutual

/-- Key paths contributed by one value: all of them when the value is
a dict, none when it is a leaf. -/
def iterKP : Tree → List Nat → List (List Nat × Tree)
  | .leaf _, _ => []
  | .branch es, path => iterEntries es path

/-- The `for key, val in d.items()` loop of `recursive_step`. -/
def iterEntries : Entries → List Nat → List (List Nat × Tree)
  | .nil, _ => []
  | .cons k v rest, path =>
      iterKP v (path ++ [k]) ++ [(path ++ [k], v)] ++ iterEntries rest path

end

/-! ## `recursive_add` (utils.py lines 290-428)

`recursive_step(d, key_path, value, init_key_path)` mutates `d` in
place.  When `d` is not a dict a warning naming `init_key_path` and
`value` is logged and nothing is changed.  With a single remaining key
the value is stored; otherwise a missing key first receives an empty
dict and the walk descends.  The source stores `d[key_path[0]] = {}`
and then mutates that empty dict in place through the recursive call;
functionally this is a single `setKey` with the recursively built
subtree.  The empty-path case cannot be produced by the callers in the
claims (the source would raise `IndexError` there) and is rendered as
a no-op. -/

def addPath : Tree → List Nat → Tree → Tree
  | .leaf n, _, _ => .leaf n
  | .branch es, [], _ => .branch es
  | .branch es, [k], v => .branch (setKey es k v)
  | .branch es, k :: rest, v =>
      match lookupKey es k with
      | some sub => .branch (setKey es k (addPath sub rest v))
      | none => .branch (setKey es k (addPath (.branch .nil) rest v))

/-- The warnings logged by `recursive_add`'s walk: one pair
`(init_key_path, value)` whenever the walk reaches a non-dict. -/
def addWarnings : Tree → List Nat → Tree → List Nat → List (List Nat × Tree)
  | .leaf _, _, v, init => [(init, v)]
  | .branch _, [], _, _ => []
  | .branch _, [_], _, _ => []
  | .branch es, k :: rest, v, init =>
      match lookupKey es k with
      | some sub => addWarnings sub rest v init
      | none => addWarnings (.branch .nil) rest v init

/-- `recursive_add(d, key_path, in_place=False)`, value semantics:
the returned dictionary (the deep copy of `d`, mutated). -/
def recursive_add (d : Tree) (kp : List Nat × Tree) : Tree :=
  addPath d kp.1 kp.2

/-! ## Errors raised by `recursive_replace` / `recursive_remove` -/

inductive PyErr where
  /-- `KeyError`, carrying the `key_path_list` walked so far. -/
  | keyNotFound : List Nat → PyErr
  /-- `ValueError` of `recursive_remove`, carrying the
  `key_path_list`, the expected value and the value found. -/
  | valueMismatch : List Nat → Tree → Tree → PyErr
  /-- Unhandled `TypeError` from subscripting or membership-testing a
  non-dict. -/
  | typeError : PyErr
deriving DecidableEq, Repr

/-! ## `recursive_replace` (utils.py lines 431-536)

`recursive_step(d, key_path, key_path_list)` has no `isinstance`
guard: with one remaining key it evaluates `d[key]` (re-raising a
`KeyError` with the accumulated path, and raising `TypeError` when `d`
is not a dict) and then overwrites; with several remaining keys it
tests `key in d` (again `TypeError` on a non-dict) and silently stops
when the key is absent. -/

def replaceStep : Tree → List Nat → Tree → List Nat → Except PyErr Tree
  | d, [k], v, kpl =>
      match d with
      | .leaf _ => .error .typeError
      | .branch es =>
          match lookupKey es k with
          | none => .error (.keyNotFound (kpl ++ [k]))
          | some _ => .ok (.branch (setKey es k v))
  | d, k :: rest, v, kpl =>
      match d with
      | .leaf _ => .error .typeError
      | .branch es =>
          match lookupKey es k with
          | some sub =>
              match replaceStep sub rest v (kpl ++ [k]) with
              | .ok sub' => .ok (.branch (setKey es k sub'))
              | .error e => .error e
          | none => .ok (.branch es)
  | d, [], _, _ => .ok d

/-- `recursive_replace(d, key_path, in_place=False)`, value
semantics. -/
def recursive_replace (d : Tree) (kp : List Nat × Tree) : Except PyErr Tree :=
  replaceStep d kp.1 kp.2 []

/-! ## `recursive_remove` (utils.py lines 539-706)

Unlike `recursive_replace`, the whole step is guarded by
`isinstance(d, dict)`: on a non-dict nothing happens.  With one
remaining key the value is fetched (`KeyError` re-raised with the
accumulated path when absent), compared against the expected value
(`ValueError` on mismatch) and deleted; with several remaining keys
the walk descends only when the key is present. -/

def removeStep : Tree → List Nat → Tree → List Nat → Except PyErr Tree
  | .leaf n, _, _, _ => .ok (.leaf n)
  | .branch es, [k], ev, kpl =>
      match lookupKey es k with
      | none => .error (.keyNotFound (kpl ++ [k]))
      | some val =>
          if val = ev then .ok (.branch (delKey es k))
          else .error (.valueMismatch (kpl ++ [k]) ev val)
  | .branch es, k :: rest, ev, kpl =>
      match lookupKey es k with
      | some sub =>
          match removeStep sub rest ev (kpl ++ [k]) with
          | .ok sub' => .ok (.branch (setKey es k sub'))
          | .error e => .error e
      | none => .ok (.branch es)
  | .branch es, [], _, _ => .ok (.branch es)

/-- `recursive_remove(d, key_path, in_place=False)`, value
semantics. -/
def recursive_remove (d : Tree) (kp : List Nat × Tree) : Except PyErr Tree :=
  removeStep d kp.1 kp.2 []

/-! ## `recursive_build` (utils.py lines 767-842) and
`recursive_merge_dicts` (utils.py lines 845-948)

`recursive_build` deduplicates the given key paths through a plain
dict keyed by the paths themselves — which requires the paths to be
hashable.  `recursive_iter_key_paths` yields its paths as Python
lists, which are unhashable, so feeding the iterator's output to
`recursive_build` raises `TypeError: unhashable type: 'list'` at the
very first membership test.  The embedding keeps the distinction with
`PyPath`: a tuple path is hashable, a list path is not.
`recursive_merge_dicts` instead deduplicates with a plain list
(`unique_key_paths`) using `==`-membership, which is fine for list
paths, so the merge is modelled directly on raw `List Nat` paths. -/

inductive PyPath where
  /-- A path supplied as a Python tuple (hashable). -/
  | ptuple : List Nat → PyPath
  /-- A path supplied as a Python list (unhashable). -/
  | plist : List Nat → PyPath
deriving DecidableEq, Repr

inductive BuildErr where
  /-- `TypeError: unhashable type: 'list'` from using a list as a
  dict key. -/
  | unhashableType : BuildErr
deriving DecidableEq, Repr

/-- The generator output of `recursive_iter_key_paths` as a caller
sees it: the paths are Python lists. -/
def recursive_iter_key_paths (d : Tree) : List (PyPath × Tree) :=
  (iterKP d []).map (fun pv => (.plist pv.1, pv.2))

/-- The deduplication loop of `recursive_build`: `unique_key_paths` is
a dict keyed by the paths, so the first occurrence of a path wins and
the surviving pairs keep their encounter order; a list path raises
`TypeError` at the membership test. -/
def dedupHash :
    List (PyPath × Tree) → List (List Nat × Tree) →
      Except BuildErr (List (List Nat × Tree))
  | [], acc => .ok acc
  | (.plist _, _) :: _, _ => .error .unhashableType
  | (.ptuple p, v) :: rest, acc =>
      if p ∈ acc.map Prod.fst then dedupHash rest acc
      else dedupHash rest (acc ++ [(p, v)])

/-- `recursive_build(key_paths)`: deduplicate, then insert every
surviving pair into an initially empty dict via `recursive_add` with
`in_place=True`. -/
def recursive_build (kps : List (PyPath × Tree)) : Except BuildErr Tree :=
  (dedupHash kps []).map
    (fun l => l.foldl (fun acc pv => addPath acc pv.1 pv.2) (.branch .nil))

/-- The deduplication loop of `recursive_merge_dicts`: a pair is kept
when its path has not been seen yet (list membership by `==`). -/
def dedupByPath :
    List (List Nat × Tree) → List (List Nat) → List (List Nat × Tree)
  | [], _ => []
  | (p, v) :: rest, seen =>
      if p ∈ seen then dedupByPath rest seen
      else (p, v) :: dedupByPath rest (p :: seen)

/-- `recursive_merge_dicts(dicts)`: chain every dictionary's key
paths, deduplicate by path keeping first occurrences, then insert
each surviving pair into an initially empty dict via `recursive_add`
with `in_place=True`. -/
def recursive_merge_dicts (ds : List Tree) : Tree :=
  (dedupByPath ((ds.map (fun d => iterKP d [])).flatten) []).foldl
    (fun acc pv => addPath acc pv.1 pv.2) (.branch .nil)

/-! ## `recursive_filter_dict` (utils.py lines 1120-1309)

The predicate may raise (modelled by `Except Unit`) or return a
non-boolean (modelled by `PredRes.pOther`).  The walk recurses into
every dict value; a selected leaf is kept on `True`, deleted together
with its key on `False`; a non-boolean return raises `TypeError`
naming the return and the leaf value; a raising predicate raises
`Exception` naming the leaf value unless `permissive` is set, in
which case the leaf is left untouched.  With `keys=None` the selected
keys are the current dict's own keys, so every leaf is selected. -/

inductive PredRes where
  | pTrue : PredRes
  | pFalse : PredRes
  /-- A non-boolean return value (its payload models the object
  reported in the error message). -/
  | pOther : Nat → PredRes
deriving DecidableEq, Repr

/-- The `k in sel_keys` test: with `keys=None` the selected keys are
the current dict's own keys, which always contain the key at hand;
otherwise membership in the given keys. -/
def selKey : Option (List Nat) → Nat → Bool
  | none, _ => true
  | some ks, k => ks.contains k

inductive FilterErr where
  /-- `Exception: Could not apply the function to v.` -/
  | couldNotApply : Nat → FilterErr
  /-- `TypeError: 'func' must return either True or False, but it
  returned r for v.` -/
  | invalidPredicateResult : Nat → Nat → FilterErr
deriving DecidableEq, Repr

def filterEntries :
    Entries → (Nat → Except Unit PredRes) → Option (List Nat) → Bool →
      Except FilterErr Entries
  | .nil, _, _, _ => .ok .nil
  | .cons k (.branch es2) rest, f, keys, perm =>
      match filterEntries es2 f keys perm with
      | .error e => .error e
      | .ok es2' =>
          match filterEntries rest f keys perm with
          | .error e => .error e
          | .ok rest' => .ok (.cons k (.branch es2') rest')
  | .cons k (.leaf n) rest, f, keys, perm =>
      if selKey keys k then
        match f n with
        | .error _ =>
            if perm then
              (filterEntries rest f keys perm).map (.cons k (.leaf n))
            else .error (.couldNotApply n)
        | .ok .pFalse => filterEntries rest f keys perm
        | .ok .pTrue =>
            (filterEntries rest f keys perm).map (.cons k (.leaf n))
        | .ok (.pOther m) => .error (.invalidPredicateResult n m)
      else (filterEntries rest f keys perm).map (.cons k (.leaf n))

/-- `recursive_filter_dict(d, func, keys, in_place=False,
permissive)`, value semantics. -/
def recursive_filter_dict (d : Tree) (f : Nat → Except Unit PredRes)
    (keys : Option (List Nat)) (perm : Bool) : Except FilterErr Tree :=
  match d with
  | .leaf n => .ok (.leaf n)
  | .branch es => (filterEntries es f keys perm).map .branch

/-! ## Helper predicates used only to state claims -/

/-- Walk a tree along a key path through existing dict entries. -/
def resolvePath : Tree → List Nat → Option Tree
  | d, [] => some d
  | .branch es, k :: rest =>
      match lookupKey es k with
      | some sub => resolvePath sub rest
      | none => none
  | .leaf _, _ :: _ => none

/-- Some non-final key of the path is absent from the dict reached at
that step (every earlier step resolved through a dict). -/
def missesNonFinal : Tree → List Nat → Bool
  | .branch es, k :: r :: rest =>
      match lookupKey es k with
      | none => true
      | some sub => missesNonFinal sub (r :: rest)
  | _, _ => false

/-- Some non-final key of the path is present but holds a leaf (every
earlier step resolved through a dict). -/
def hitsLeafNonFinal : Tree → List Nat → Bool
  | .branch es, k :: r :: rest =>
      match lookupKey es k with
      | some (.leaf _) => true
      | some sub => hitsLeafNonFinal sub (r :: rest)
      | none => false
  | _, _ => false

/-- The walk of `recursive_add` reaches an existing leaf before the
final key (so its warning fires).  Missing keys never lead to a leaf:
`recursive_add` fills them with fresh empty dicts. -/
def addHitsLeaf : Tree → List Nat → Bool
  | .branch es, k :: r :: rest =>
      match lookupKey es k with
      | some (.leaf _) => true
      | some sub => addHitsLeaf sub (r :: rest)
      | none => false
  | _, _ => false

/-- The filter restricted to a boolean predicate, written from the
claim's wording: dict values are recursed into and never deleted
themselves, a selected leaf is kept exactly when the predicate holds
(stated for `keys=None`, where every leaf is selected). -/
def filterPure : Entries → (Nat → Bool) → Entries
  | .nil, _ => .nil
  | .cons k (.branch es2) rest, p =>
      .cons k (.branch (filterPure es2 p)) (filterPure rest p)
  | .cons k (.leaf n) rest, p =>
      if p n then .cons k (.leaf n) (filterPure rest p)
      else filterPure rest p

/-! ## Sample trees from the spec's examples -/

/-- The entries of `T = {1: 2, 3: {4: 5}, 6: {3: {7: 8}, 7: 10}, 7: 11}`. -/
def sampleEntries : Entries :=
  .cons 1 (.leaf 2)
  (.cons 3 (.branch (.cons 4 (.leaf 5) .nil))
  (.cons 6 (.branch (.cons 3 (.branch (.cons 7 (.leaf 8) .nil))
                    (.cons 7 (.leaf 10) .nil)))
  (.cons 7 (.leaf 11) .nil)))

/-- `T = {1: 2, 3: {4: 5}, 6: {3: {7: 8}, 7: 10}, 7: 11}`. -/
def sampleT : Tree := .branch sampleEntries

/-! ## Association-list lemmas -/

theorem lookupKey_setKey_self (es : Entries) (k : Nat) (v : Tree) :
    lookupKey (setKey es k v) k = some v := by
  induction es using Entries.list_induction with
  | hnil => simp [setKey, lookupKey]
  | hcons k' v' rest ih =>
      by_cases h : k' = k <;> simp [setKey, lookupKey, h, ih]

theorem setKey_lookup_id {es : Entries} {k : Nat} {w : Tree}
    (h : lookupKey es k = some w) : setKey es k w = es := by
  induction es using Entries.list_induction with
  | hnil => simp [lookupKey] at h
  | hcons k' v' rest ih =>
      by_cases hk : k' = k
      · subst hk
        simp [lookupKey] at h
        simp [setKey, h]
      · simp [lookupKey, hk] at h
        simp [setKey, hk, ih h]

theorem lookupKey_of_hasKey_false {es : Entries} {k : Nat}
    (h : hasKey es k = false) : lookupKey es k = none := by
  induction es using Entries.list_induction with
  | hnil => simp [lookupKey]
  | hcons k' v' rest ih =>
      simp [hasKey] at h
      simp [lookupKey, h.1, ih h.2]

theorem setKey_fresh {es : Entries} {k : Nat} (v : Tree)
    (h : hasKey es k = false) :
    setKey es k v = es.append (.cons k v .nil) := by
  induction es using Entries.list_induction with
  | hnil => simp [setKey, Entries.append]
  | hcons k' v' rest ih =>
      simp [hasKey] at h
      simp [setKey, h.1, Entries.append, ih h.2]

theorem setKey_append_self {es : Entries} {k : Nat} (w v : Tree)
    (h : hasKey es k = false) :
    setKey (es.append (.cons k w .nil)) k v = es.append (.cons k v .nil) := by
  induction es using Entries.list_induction with
  | hnil => simp [Entries.append, setKey]
  | hcons k' v' rest ih =>
      simp [hasKey] at h
      simp [Entries.append, setKey, h.1, ih h.2]

theorem lookupKey_append_self {es : Entries} {k : Nat} (w : Tree)
    (h : hasKey es k = false) :
    lookupKey (es.append (.cons k w .nil)) k = some w := by
  induction es using Entries.list_induction with
  | hnil => simp [Entries.append, lookupKey]
  | hcons k' v' rest ih =>
      simp [hasKey] at h
      simp [Entries.append, lookupKey, h.1, ih h.2]

theorem hasKey_append (es fs : Entries) (k : Nat) :
    hasKey (es.append fs) k = (hasKey es k || hasKey fs k) := by
  induction es using Entries.list_induction with
  | hnil => simp [Entries.append, hasKey]
  | hcons k' v' rest ih => simp [Entries.append, hasKey, ih, Bool.or_assoc]

theorem append_cons_assoc (es : Entries) (k : Nat) (v : Tree) (fs : Entries) :
    (es.append (.cons k v .nil)).append fs = es.append (.cons k v fs) := by
  induction es using Entries.list_induction with
  | hnil => simp [Entries.append]
  | hcons k' v' rest ih => simp [Entries.append, ih]

theorem lookupKey_delKey_self {es : Entries} {k : Nat}
    (h : wfE es = true) : lookupKey (delKey es k) k = none := by
  induction es using Entries.list_induction with
  | hnil => simp [delKey, lookupKey]
  | hcons k' v' rest ih =>
      simp [wfE] at h
      by_cases hk : k' = k
      · subst hk
        simp [delKey, lookupKey_of_hasKey_false h.1.1]
      · simp [delKey, hk, lookupKey, ih h.2]

/-! ## Walk lemmas for `resolvePath` -/

theorem resolvePath_append (p q : List Nat) :
    ∀ d : Tree, resolvePath d (p ++ q)
      = (resolvePath d p).bind (fun s => resolvePath s q) := by
  induction p with
  | nil => intro d; simp [resolvePath]
  | cons k rest ih =>
      intro d
      match d with
      | .leaf n => simp [resolvePath]
      | .branch es =>
          simp only [List.cons_append, resolvePath]
          match lookupKey es k with
          | some sub => simp [ih sub]
          | none => simp

theorem wfT_lookupKey {es : Entries} {k : Nat} {sub : Tree}
    (hwf : wfE es = true) (h : lookupKey es k = some sub) : wfT sub = true := by
  induction es using Entries.list_induction with
  | hnil => simp [lookupKey] at h
  | hcons k' v' rest ih =>
      simp [wfE] at hwf
      by_cases hk : k' = k
      · subst hk
        simp [lookupKey] at h
        exact h ▸ hwf.1.2
      · simp [lookupKey, hk] at h
        exact ih hwf.2 h

theorem wfT_resolvePath {p : List Nat} :
    ∀ {d s : Tree}, wfT d = true → resolvePath d p = some s → wfT s = true := by
  induction p with
  | nil =>
      intro d s hwf h
      simp [resolvePath] at h
      exact h ▸ hwf
  | cons k rest ih =>
      intro d s hwf h
      match d with
      | .leaf n => simp [resolvePath] at h
      | .branch es =>
          simp only [resolvePath] at h
          match hl : lookupKey es k with
          | some sub =>
              rw [hl] at h
              exact ih (wfT_lookupKey hwf hl) h
          | none => rw [hl] at h; simp at h

/-! ## Walk lemmas for `recursive_remove` and `recursive_replace` -/

theorem removeStep_walk_error (pre : List Nat) :
    ∀ {d sub : Tree} {last : Nat} {ev : Tree} {kpl : List Nat} {e : PyErr},
      resolvePath d pre = some sub →
      removeStep sub [last] ev (kpl ++ pre) = .error e →
      removeStep d (pre ++ [last]) ev kpl = .error e := by
  induction pre with
  | nil =>
      intro d sub last ev kpl e hres hstep
      simp [resolvePath] at hres
      subst hres
      simpa using hstep
  | cons k pre ih =>
      intro d sub last ev kpl e hres hstep
      match d with
      | .leaf n => simp [resolvePath] at hres
      | .branch es =>
          simp only [resolvePath] at hres
          match hl : lookupKey es k with
          | none => rw [hl] at hres; simp at hres
          | some s0 =>
              rw [hl] at hres
              simp only [] at hres
              have hstep' : removeStep sub [last] ev ((kpl ++ [k]) ++ pre) = .error e := by
                simpa [List.append_assoc] using hstep
              have hrec := ih hres hstep'
              cases hpe : pre ++ [last] with
              | nil => simp at hpe
              | cons r t =>
                  rw [List.cons_append, hpe]
                  rw [hpe] at hrec
                  simp only [removeStep, hl, hrec]

theorem removeStep_walk_ok (pre : List Nat) :
    ∀ {d sub : Tree} {last : Nat} {ev : Tree} {kpl : List Nat} {t : Tree},
      resolvePath d pre = some sub →
      removeStep sub [last] ev (kpl ++ pre) = .ok t →
      ∃ d', removeStep d (pre ++ [last]) ev kpl = .ok d' ∧
        resolvePath d' pre = some t := by
  induction pre with
  | nil =>
      intro d sub last ev kpl t hres hstep
      simp [resolvePath] at hres
      subst hres
      exact ⟨t, by simpa using hstep, by simp [resolvePath]⟩
  | cons k pre ih =>
      intro d sub last ev kpl t hres hstep
      match d with
      | .leaf n => simp [resolvePath] at hres
      | .branch es =>
          simp only [resolvePath] at hres
          match hl : lookupKey es k with
          | none => rw [hl] at hres; simp at hres
          | some s0 =>
              rw [hl] at hres
              simp only [] at hres
              have hstep' : removeStep sub [last] ev ((kpl ++ [k]) ++ pre) = .ok t := by
                simpa [List.append_assoc] using hstep
              obtain ⟨s0', hs0', hres0'⟩ := ih hres hstep'
              refine ⟨.branch (setKey es k s0'), ?_, ?_⟩
              · cases hpe : pre ++ [last] with
                | nil => simp at hpe
                | cons r u =>
                    rw [List.cons_append, hpe]
                    rw [hpe] at hs0'
                    simp only [removeStep, hl, hs0']
              · simp only [resolvePath, lookupKey_setKey_self, hres0']

theorem replaceStep_walk_error (pre : List Nat) :
    ∀ {d sub : Tree} {last : Nat} {v : Tree} {kpl : List Nat} {e : PyErr},
      resolvePath d pre = some sub →
      replaceStep sub [last] v (kpl ++ pre) = .error e →
      replaceStep d (pre ++ [last]) v kpl = .error e := by
  induction pre with
  | nil =>
      intro d sub last v kpl e hres hstep
      simp [resolvePath] at hres
      subst hres
      simpa using hstep
  | cons k pre ih =>
      intro d sub last v kpl e hres hstep
      match d with
      | .leaf n => simp [resolvePath] at hres
      | .branch es =>
          simp only [resolvePath] at hres
          match hl : lookupKey es k with
          | none => rw [hl] at hres; simp at hres
          | some s0 =>
              rw [hl] at hres
              simp only [] at hres
              have hstep' : replaceStep sub [last] v ((kpl ++ [k]) ++ pre) = .error e := by
                simpa [List.append_assoc] using hstep
              have hrec := ih hres hstep'
              cases hpe : pre ++ [last] with
              | nil => simp at hpe
              | cons r t =>
                  rw [List.cons_append, hpe]
                  rw [hpe] at hrec
                  simp only [replaceStep, hl, hrec]

theorem replaceStep_walk_ok (pre : List Nat) :
    ∀ {d sub : Tree} {last : Nat} {v : Tree} {kpl : List Nat} {t : Tree},
      resolvePath d pre = some sub →
      replaceStep sub [last] v (kpl ++ pre) = .ok t →
      ∃ d', replaceStep d (pre ++ [last]) v kpl = .ok d' ∧
        resolvePath d' pre = some t := by
  induction pre with
  | nil =>
      intro d sub last v kpl t hres hstep
      simp [resolvePath] at hres
      subst hres
      exact ⟨t, by simpa using hstep, by simp [resolvePath]⟩
  | cons k pre ih =>
      intro d sub last v kpl t hres hstep
      match d with
      | .leaf n => simp [resolvePath] at hres
      | .branch es =>
          simp only [resolvePath] at hres
          match hl : lookupKey es k with
          | none => rw [hl] at hres; simp at hres
          | some s0 =>
              rw [hl] at hres
              simp only [] at hres
              have hstep' : replaceStep sub [last] v ((kpl ++ [k]) ++ pre) = .ok t := by
                simpa [List.append_assoc] using hstep
              obtain ⟨s0', hs0', hres0'⟩ := ih hres hstep'
              refine ⟨.branch (setKey es k s0'), ?_, ?_⟩
              · cases hpe : pre ++ [last] with
                | nil => simp at hpe
                | cons r u =>
                    rw [List.cons_append, hpe]
                    rw [hpe] at hs0'
                    simp only [replaceStep, hl, hs0']
              · simp only [resolvePath, lookupKey_setKey_self, hres0']

/-! ## Predicate-driven lemmas -/

theorem addPath_of_addHitsLeaf (path : List Nat) :
    ∀ {d : Tree} (v : Tree), addHitsLeaf d path = true →
      addPath d path v = d ∧ ∀ init, addWarnings d path v init = [(init, v)] := by
  induction path with
  | nil => intro d v h; cases d <;> simp [addHitsLeaf] at h
  | cons k tail ih =>
      intro d v h
      match d, tail with
      | .leaf n, _ => simp [addHitsLeaf] at h
      | .branch es, [] => simp [addHitsLeaf] at h
      | .branch es, r :: rest =>
          simp only [addHitsLeaf] at h
          match hl : lookupKey es k with
          | none => rw [hl] at h; simp at h
          | some (.leaf m) =>
              constructor
              · simp [addPath, hl, setKey_lookup_id hl]
              · intro init
                simp [addWarnings, hl]
          | some (.branch es2) =>
              rw [hl] at h
              obtain ⟨h1, h2⟩ := ih v h
              constructor
              · simp [addPath, hl, h1, setKey_lookup_id hl]
              · intro init
                simp [addWarnings, hl, h2 init]

theorem replaceStep_of_missesNonFinal (path : List Nat) :
    ∀ {d : Tree} (v : Tree) (kpl : List Nat), missesNonFinal d path = true →
      replaceStep d path v kpl = .ok d := by
  induction path with
  | nil => intro d v kpl h; cases d <;> simp [missesNonFinal] at h
  | cons k tail ih =>
      intro d v kpl h
      match d, tail with
      | .leaf n, _ => simp [missesNonFinal] at h
      | .branch es, [] => simp [missesNonFinal] at h
      | .branch es, r :: rest =>
          simp only [missesNonFinal] at h
          match hl : lookupKey es k with
          | none => simp [replaceStep, hl]
          | some sub =>
              rw [hl] at h
              have hrec := ih v (kpl ++ [k]) h
              simp [replaceStep, hl, hrec, setKey_lookup_id hl]

theorem leafNonFinal_behavior (path : List Nat) :
    ∀ {d : Tree} (v ev : Tree) (kpl : List Nat), hitsLeafNonFinal d path = true →
      replaceStep d path v kpl = .error .typeError ∧
      removeStep d path ev kpl = .ok d := by
  induction path with
  | nil => intro d v ev kpl h; cases d <;> simp [hitsLeafNonFinal] at h
  | cons k tail ih =>
      intro d v ev kpl h
      match d, tail with
      | .leaf n, _ => simp [hitsLeafNonFinal] at h
      | .branch es, [] => simp [hitsLeafNonFinal] at h
      | .branch es, r :: rest =>
          simp only [hitsLeafNonFinal] at h
          match hl : lookupKey es k with
          | none => rw [hl] at h; simp at h
          | some (.leaf m) =>
              constructor
              · cases rest with
                | nil => simp [replaceStep, hl]
                | cons r2 rest2 => simp [replaceStep, hl]
              · cases rest with
                | nil => simp [removeStep, hl, setKey_lookup_id hl]
                | cons r2 rest2 => simp [removeStep, hl, setKey_lookup_id hl]
          | some (.branch es2) =>
              rw [hl] at h
              obtain ⟨h1, h2⟩ := ih v ev (kpl ++ [k]) h
              constructor
              · simp [replaceStep, hl, h1]
              · simp [removeStep, hl, h2, setKey_lookup_id hl]

/-! ## Sample results used in the claims -/

/-- `T` after removing the `7: 11` entry. -/
def sampleRemoved : Tree :=
  .branch
    (.cons 1 (.leaf 2)
    (.cons 3 (.branch (.cons 4 (.leaf 5) .nil))
    (.cons 6 (.branch (.cons 3 (.branch (.cons 7 (.leaf 8) .nil))
                      (.cons 7 (.leaf 10) .nil))) .nil)))

/-! ## Claims C5, C6, C7, C10 -/

/-- C5: whenever `recursive_add` walks its key path and some step
reaches an existing leaf instead of a dict, the call logs a non-fatal
warning naming the full original path and the value that could not be
placed, raises no exception (the model is total), and performs no
insertion at all — the walk never mutates before reaching the leaf, so
the tree is returned unchanged; in particular
`recursive_add(T, ((6,3,7,12), 13), in_place=False)` on
`T = {1:2, 3:{4:5}, 6:{3:{7:8}, 7:10}, 7:11}` returns a tree
structurally equal to `T` and logs the warning `((6,3,7,12), 13)`. -/
theorem claim_C5_add_aborts_on_leaf :
    (∀ (d : Tree) (path : List Nat) (v : Tree),
        addHitsLeaf d path = true →
        addPath d path v = d ∧
        ∀ init, addWarnings d path v init = [(init, v)]) ∧
    recursive_add sampleT ([6, 3, 7, 12], .leaf 13) = sampleT ∧
    addWarnings sampleT [6, 3, 7, 12] (.leaf 13) [6, 3, 7, 12]
      = [([6, 3, 7, 12], .leaf 13)] :=
  ⟨fun _ path v h => addPath_of_addHitsLeaf path v h, by decide, by decide⟩

/-- Witness for C5 at the spec's example input. -/
theorem claim_C5_witness :
    addHitsLeaf sampleT [6, 3, 7, 12] = true ∧
    addPath sampleT [6, 3, 7, 12] (.leaf 13) = sampleT :=
  ⟨by decide,
   (claim_C5_add_aborts_on_leaf.1 sampleT [6, 3, 7, 12] (.leaf 13) (by decide)).1⟩

/-- C6: `recursive_remove`, having walked all non-final path keys
through existing dict entries (`resolvePath` of the prefix reaches a
dict), behaves at the final key as follows: `KeyError` carrying the
walked path when the key is absent, `ValueError` carrying the expected
and the found value when the value differs, and otherwise the key is
deleted together with its whole subtree (afterwards the full path no
longer resolves).  The three spec examples on
`T = {1:2, 3:{4:5}, 6:{3:{7:8}, 7:10}, 7:11}` behave as stated. -/
theorem claim_C6_remove_behavior :
    (∀ (d : Tree) (pre : List Nat) (last : Nat) (ev : Tree) (es : Entries),
        resolvePath d pre = some (.branch es) →
        ((lookupKey es last = none →
            removeStep d (pre ++ [last]) ev []
              = .error (.keyNotFound (pre ++ [last]))) ∧
         (∀ w, lookupKey es last = some w → w ≠ ev →
            removeStep d (pre ++ [last]) ev []
              = .error (.valueMismatch (pre ++ [last]) ev w)) ∧
         (wfT d = true → lookupKey es last = some ev →
            ∃ d', removeStep d (pre ++ [last]) ev [] = .ok d' ∧
              resolvePath d' (pre ++ [last]) = none))) ∧
    recursive_remove sampleT ([7], .leaf 11) = .ok sampleRemoved ∧
    recursive_remove sampleT ([3, 6], .leaf 5) = .error (.keyNotFound [3, 6]) ∧
    recursive_remove sampleT ([3, 4], .leaf 6)
      = .error (.valueMismatch [3, 4] (.leaf 6) (.leaf 5)) := by
  refine ⟨?_, rfl, rfl, rfl⟩
  intro d pre last ev es hres
  refine ⟨?_, ?_, ?_⟩
  · intro habs
    refine removeStep_walk_error pre hres ?_
    simp [removeStep, habs]
  · intro w hw hne
    refine removeStep_walk_error pre hres ?_
    simp [removeStep, hw, hne]
  · intro hwf hev
    have hstep : removeStep (.branch es) [last] ev ([] ++ pre)
        = .ok (.branch (delKey es last)) := by
      simp [removeStep, hev]
    obtain ⟨d', hd', hres'⟩ := removeStep_walk_ok pre hres hstep
    refine ⟨d', hd', ?_⟩
    rw [resolvePath_append, hres']
    have hwfes : wfE es = true := wfT_resolvePath hwf hres
    simp [resolvePath, lookupKey_delKey_self hwfes]

/-- Witness for C6 at the spec's example inputs. -/
theorem claim_C6_witness :
    removeStep sampleT ([3] ++ [6]) (.leaf 5) []
      = .error (.keyNotFound ([3] ++ [6])) :=
  (claim_C6_remove_behavior.1 sampleT [3] 6 (.leaf 5)
    (.cons 4 (.leaf 5) .nil) (by decide)).1 (by decide)

/-- C7: `recursive_replace` silently performs no change (and raises
nothing) when some non-final key of the path is absent from the dict
reached at that step; fails with `KeyError` naming the path traversed
so far when every non-final key resolves but the final key is absent;
and overwrites the final key's value (dict or leaf) with the supplied
value when the final key is present. -/
theorem claim_C7_replace_behavior :
    (∀ (d : Tree) (path : List Nat) (v : Tree) (kpl : List Nat),
        missesNonFinal d path = true → replaceStep d path v kpl = .ok d) ∧
    (∀ (d : Tree) (pre : List Nat) (last : Nat) (v : Tree) (es : Entries),
        resolvePath d pre = some (.branch es) → lookupKey es last = none →
        replaceStep d (pre ++ [last]) v []
          = .error (.keyNotFound (pre ++ [last]))) ∧
    (∀ (d : Tree) (pre : List Nat) (last : Nat) (v : Tree) (es : Entries)
        (w : Tree),
        resolvePath d pre = some (.branch es) → lookupKey es last = some w →
        ∃ d', replaceStep d (pre ++ [last]) v [] = .ok d' ∧
          resolvePath d' (pre ++ [last]) = some v) := by
  refine ⟨fun _ path v kpl h => replaceStep_of_missesNonFinal path v kpl h, ?_, ?_⟩
  · intro d pre last v es hres habs
    refine replaceStep_walk_error pre hres ?_
    simp [replaceStep, habs]
  · intro d pre last v es w hres hw
    have hstep : replaceStep (.branch es) [last] v ([] ++ pre)
        = .ok (.branch (setKey es last v)) := by
      simp [replaceStep, hw]
    obtain ⟨d', hd', hres'⟩ := replaceStep_walk_ok pre hres hstep
    refine ⟨d', hd', ?_⟩
    rw [resolvePath_append, hres']
    simp [resolvePath, lookupKey_setKey_self]

/-- Witness for C7 at concrete inputs on the spec's sample tree:
a silent no-op for the path `[9, 2]` (missing non-final key `9`),
`KeyError` for path `[3, 9]` (missing final key), and an overwrite for
path `[3, 4]`. -/
theorem claim_C7_witness :
    replaceStep sampleT [9, 2] (.leaf 0) [] = .ok sampleT ∧
    replaceStep sampleT ([3] ++ [9]) (.leaf 0) []
      = .error (.keyNotFound ([3] ++ [9])) ∧
    ∃ d', replaceStep sampleT ([3] ++ [4]) (.leaf 9) [] = .ok d' ∧
      resolvePath d' ([3] ++ [4]) = some (.leaf 9) :=
  ⟨claim_C7_replace_behavior.1 sampleT [9, 2] (.leaf 0) [] (by decide),
   claim_C7_replace_behavior.2.1 sampleT [3] 9 (.leaf 0)
     (.cons 4 (.leaf 5) .nil) (by decide) (by decide),
   claim_C7_replace_behavior.2.2 sampleT [3] 4 (.leaf 9)
     (.cons 4 (.leaf 5) .nil) (.leaf 5) (by decide) (by decide)⟩

/-- C10: when a non-final key of the path given to `recursive_replace`
is present but holds a leaf, the call fails with an unhandled
`TypeError` (neither `KeyError` nor a silent no-op), because the step
subscripts or membership-tests a non-dict; `recursive_remove` guards
the same situation with an `isinstance` check and silently performs no
change. -/
theorem claim_C10_intermediate_leaf :
    ∀ (d : Tree) (path : List Nat) (v ev : Tree) (kpl : List Nat),
      hitsLeafNonFinal d path = true →
      replaceStep d path v kpl = .error .typeError ∧
      removeStep d path ev kpl = .ok d :=
  fun _ path v ev kpl h => leafNonFinal_behavior path v ev kpl h

/-- Witness for C10 at the claim's example `replace(T, ((1, 2), 9))`:
key `1` is a non-final key holding the leaf `2`. -/
theorem claim_C10_witness :
    replaceStep sampleT [1, 2] (.leaf 9) [] = .error .typeError ∧
    removeStep sampleT [1, 2] (.leaf 9) [] = .ok sampleT :=
  claim_C10_intermediate_leaf sampleT [1, 2] (.leaf 9) (.leaf 9) [] (by decide)

/-! ## Shape and uniqueness of the linearization's key paths -/

theorem mem_iterEntries_shape (es : Entries) :
    ∀ (path : List Nat) (pv : List Nat × Tree), pv ∈ iterEntries es path →
      ∃ k s, hasKey es k = true ∧ pv.1 = path ++ k :: s := by
  refine @entries_ind
    (fun v => ∀ path pv, pv ∈ iterKP v path →
      ∃ s, ¬s = [] ∧ pv.1 = path ++ s)
    (fun es => ∀ path pv, pv ∈ iterEntries es path →
      ∃ k s, hasKey es k = true ∧ pv.1 = path ++ k :: s)
    ?_ ?_ ?_ ?_ es
  · intro n path pv h
    simp [iterKP] at h
  · intro es2 ih path pv h
    simp only [iterKP] at h
    obtain ⟨k, s, _, h1⟩ := ih path pv h
    exact ⟨k :: s, by simp, h1⟩
  · intro path pv h
    simp [iterEntries] at h
  · intro k v rest ihv ihrest path pv h
    rw [iterEntries] at h
    rcases List.mem_append.1 h with h12 | hB
    rcases List.mem_append.1 h12 with hA | hx
    on_goal 2 => have hself := List.mem_singleton.1 hx
    · obtain ⟨s, _, h1⟩ := ihv (path ++ [k]) pv hA
      refine ⟨k, s, by simp [hasKey], ?_⟩
      simpa [List.append_assoc] using h1
    · exact ⟨k, [], by simp [hasKey], by simp [hself]⟩
    · obtain ⟨k2, s2, hk2, h1⟩ := ihrest path pv hB
      exact ⟨k2, s2, by simp [hasKey, hk2], h1⟩

theorem mem_iterKP_shape (v : Tree) (path : List Nat) (pv : List Nat × Tree)
    (h : pv ∈ iterKP v path) : ∃ k s, pv.1 = path ++ k :: s := by
  cases v with
  | leaf n => simp [iterKP] at h
  | branch es =>
      simp only [iterKP] at h
      obtain ⟨k, s, _, h1⟩ := mem_iterEntries_shape es path pv h
      exact ⟨k, s, h1⟩

theorem iterEntries_paths_nodup (es : Entries) :
    ∀ (path : List Nat), wfE es = true →
      ((iterEntries es path).map Prod.fst).Nodup := by
  refine @entries_ind
    (fun v => ∀ path, wfT v = true →
      ((iterKP v path).map Prod.fst).Nodup)
    (fun es => ∀ path, wfE es = true →
      ((iterEntries es path).map Prod.fst).Nodup)
    ?_ ?_ ?_ ?_ es
  · intro n path _
    simp [iterKP]
  · intro es2 ih path h
    simp only [iterKP]
    exact ih path (by simpa [wfT] using h)
  · intro path _
    simp [iterEntries]
  · intro k v rest ihv ihrest path h
    simp only [wfE, Bool.and_eq_true, Bool.not_eq_true'] at h
    obtain ⟨⟨hkey, hwv⟩, hwrest⟩ := h
    simp only [iterEntries, List.map_append, List.map_cons, List.map_nil,
      List.append_assoc, List.singleton_append, List.cons_append,
      List.nil_append]
    rw [List.nodup_middle]
    refine List.nodup_cons.2 ⟨?_, ?_⟩
    · intro hmem
      rcases List.mem_append.1 hmem with hA | hB
      · obtain ⟨pv, hpv, hfst⟩ := List.mem_map.1 hA
        obtain ⟨k2, s2, h1⟩ := mem_iterKP_shape v (path ++ [k]) pv hpv
        rw [h1] at hfst
        have hlen := congrArg List.length hfst
        simp at hlen
      · obtain ⟨pv, hpv, hfst⟩ := List.mem_map.1 hB
        obtain ⟨k2, s2, hk2, h1⟩ := mem_iterEntries_shape rest path pv hpv
        rw [h1] at hfst
        have h2 : (k2 : Nat) :: s2 = [k] := List.append_cancel_left hfst
        have hk2k : k2 = k := (List.cons.inj h2).1
        rw [hk2k] at hk2
        simp [hk2] at hkey
    · refine List.nodup_append.2 ⟨ihv (path ++ [k]) hwv, ihrest path hwrest, ?_⟩
      intro x hA hB
      obtain ⟨pv, hpv, hfst⟩ := List.mem_map.1 hA
      obtain ⟨pw, hpw, hfst2⟩ := List.mem_map.1 hB
      obtain ⟨k2, s2, h1⟩ := mem_iterKP_shape v (path ++ [k]) pv hpv
      obtain ⟨k3, s3, hk3, h2⟩ := mem_iterEntries_shape rest path pw hpw
      have heq : (path ++ [k]) ++ k2 :: s2 = path ++ k3 :: s3 := by
        rw [← h1, ← h2, hfst, hfst2]
      have heq2 : path ++ (k :: k2 :: s2) = path ++ k3 :: s3 := by
        simpa [List.append_assoc] using heq
      have h3 : (k : Nat) :: k2 :: s2 = k3 :: s3 := List.append_cancel_left heq2
      have hk3k : k = k3 := (List.cons.inj h3).1
      rw [← hk3k] at hk3
      simp [hk3] at hkey

/-! ## Deduplication and the building fold -/

theorem dedupByPath_eq_self :
    ∀ (l : List (List Nat × Tree)) (seen : List (List Nat)),
      (l.map Prod.fst).Nodup → (∀ pv ∈ l, pv.1 ∉ seen) →
      dedupByPath l seen = l := by
  intro l
  induction l with
  | nil => intro seen _ _; simp [dedupByPath]
  | cons pv rest ih =>
      intro seen hnd hseen
      obtain ⟨p, v⟩ := pv
      have hp : p ∉ seen := hseen (p, v) (List.mem_cons_self _ _)
      simp only [List.map_cons, List.nodup_cons] at hnd
      rw [dedupByPath, if_neg hp]
      congr 1
      refine ih (p :: seen) hnd.2 ?_
      intro qv hq
      simp only [List.mem_cons, not_or]
      refine ⟨?_, hseen qv (List.mem_cons_of_mem _ hq)⟩
      intro hqp
      exact hnd.1 (hqp ▸ List.mem_map_of_mem Prod.fst hq)

theorem Entries.append_nil (es : Entries) : es.append .nil = es := by
  induction es using Entries.list_induction with
  | hnil => rfl
  | hcons k v rest ih => simp [Entries.append, ih]

theorem addPath_headkey {es : Entries} {k : Nat} (hk : hasKey es k = false) :
    ∀ (st : Tree),
      (st = .branch es ∨ ∃ w, st = .branch (es.append (.cons k w .nil))) →
      ∀ (s : List Nat) (v : Tree),
        ∃ u, addPath st (k :: s) v = .branch (es.append (.cons k u .nil)) := by
  intro st hst s v
  rcases hst with hst | ⟨w, hst⟩
  · subst hst
    cases s with
    | nil => exact ⟨v, by rw [addPath, setKey_fresh v hk]⟩
    | cons r t =>
        refine ⟨addPath (.branch .nil) (r :: t) v, ?_⟩
        simp only [addPath, lookupKey_of_hasKey_false hk]
        rw [setKey_fresh _ hk]
  · subst hst
    cases s with
    | nil => exact ⟨v, by rw [addPath, setKey_append_self w v hk]⟩
    | cons r t =>
        refine ⟨addPath w (r :: t) v, ?_⟩
        simp only [addPath, lookupKey_append_self w hk]
        rw [setKey_append_self w _ hk]

theorem foldl_addPath_headkey {es : Entries} {k : Nat}
    (hk : hasKey es k = false) :
    ∀ (D : List (List Nat × Tree)), (∀ pv ∈ D, ∃ s, pv.1 = k :: s) →
      ∀ st,
        (st = .branch es ∨ ∃ w, st = .branch (es.append (.cons k w .nil))) →
        (D.foldl (fun acc pv => addPath acc pv.1 pv.2) st = .branch es ∨
         ∃ w, D.foldl (fun acc pv => addPath acc pv.1 pv.2) st
            = .branch (es.append (.cons k w .nil))) := by
  intro D
  induction D with
  | nil => intro _ st hst; simpa using hst
  | cons pv D ih =>
      intro hD st hst
      obtain ⟨s, hs⟩ := hD pv (List.mem_cons_self _ _)
      obtain ⟨u, hu⟩ := addPath_headkey hk st hst s pv.2
      rw [List.foldl_cons]
      refine ih (fun qv hq => hD qv (List.mem_cons_of_mem _ hq))
        (addPath st pv.1 pv.2) ?_
      rw [hs, hu]
      exact .inr ⟨u, rfl⟩

theorem foldl_addPath_group {es : Entries} {k : Nat} (v : Tree)
    (hk : hasKey es k = false)
    (D : List (List Nat × Tree)) (hD : ∀ pv ∈ D, ∃ s, pv.1 = k :: s) :
    (D ++ [([k], v)]).foldl (fun acc pv => addPath acc pv.1 pv.2) (.branch es)
      = .branch (es.append (.cons k v .nil)) := by
  rw [List.foldl_append]
  rcases foldl_addPath_headkey hk D hD (.branch es) (.inl rfl) with hst | ⟨w, hst⟩
  · rw [hst]
    simp only [List.foldl_cons, List.foldl_nil]
    rw [addPath, setKey_fresh v hk]
  · rw [hst]
    simp only [List.foldl_cons, List.foldl_nil]
    rw [addPath, setKey_append_self w v hk]

theorem foldl_addPath_iterEntries :
    ∀ (es es0 : Entries), wfE es = true →
      (∀ k, hasKey es k = true → hasKey es0 k = false) →
      (iterEntries es []).foldl (fun acc pv => addPath acc pv.1 pv.2)
          (.branch es0)
        = .branch (es0.append es) := by
  intro es
  induction es using Entries.list_induction with
  | hnil =>
      intro es0 _ _
      simp [iterEntries, Entries.append_nil]
  | hcons k v rest ih =>
      intro es0 hwf hdisj
      simp only [wfE, Bool.and_eq_true, Bool.not_eq_true'] at hwf
      obtain ⟨⟨hkey, _⟩, hwrest⟩ := hwf
      have hk0 : hasKey es0 k = false := hdisj k (by simp [hasKey])
      rw [iterEntries]
      simp only [List.nil_append]
      rw [List.foldl_append]
      rw [foldl_addPath_group v hk0 (iterKP v [k]) ?shape]
      case shape =>
        intro pv hpv
        obtain ⟨k2, s2, h1⟩ := mem_iterKP_shape v [k] pv hpv
        exact ⟨k2 :: s2, by simpa using h1⟩
      rw [ih (es0.append (.cons k v .nil)) hwrest ?disj]
      case disj =>
        intro k2 hk2
        rw [hasKey_append]
        have h0 : hasKey es0 k2 = false := hdisj k2 (by simp [hasKey, hk2])
        by_cases hkk : k2 = k
        · rw [hkk] at hk2
          simp [hk2] at hkey
        · have hkk2 : ¬k = k2 := fun hcon => hkk hcon.symm
          simp [h0, hasKey, hkk2]
      rw [append_cons_assoc]

/-! ## Claims C1 and C2 -/

/-- C1: the round trip as the code actually runs it fails —
`recursive_iter_key_paths` yields its key paths as Python lists and
`recursive_build` deduplicates through a dict keyed by those paths, so
`recursive_build(recursive_iter_key_paths(T))` raises
`TypeError: unhashable type: 'list'` for any non-empty tree, here at
the one-entry tree `{1: 2}`.  The round trip itself is the intent and
holds for the insertion algorithm: with the same key paths supplied
hashable (as tuples), building from the linearization of the sample
tree `T` reproduces `T` exactly. -/
theorem claim_C1_roundtrip_observed :
    recursive_build (recursive_iter_key_paths (.branch (.cons 1 (.leaf 2) .nil)))
      = .error .unhashableType ∧
    recursive_build
        ((iterKP sampleT []).map (fun pv => (PyPath.ptuple pv.1, pv.2)))
      = .ok sampleT :=
  ⟨rfl, rfl⟩

/-- C2: merging the one-element sequence `[T]` returns a tree
structurally equal to `T`, for every dict `T` (well-formedness is the
representation invariant of Python dicts: keys unique in each dict).
The linearization's key paths are pairwise distinct, so the
deduplication keeps them all, and inserting them in order rebuilds
`T`'s entries in their original order. -/
theorem claim_C2_merge_idempotent :
    ∀ es : Entries, wfT (.branch es) = true →
      recursive_merge_dicts [.branch es] = .branch es := by
  intro es h
  have hwf : wfE es = true := by
    rw [wfT] at h
    exact h
  unfold recursive_merge_dicts
  simp only [List.map_cons, List.map_nil, List.flatten_cons, List.flatten_nil,
    List.append_nil]
  rw [show iterKP (.branch es) [] = iterEntries es [] from rfl]
  rw [dedupByPath_eq_self _ _ (iterEntries_paths_nodup es [] hwf) (by simp)]
  rw [foldl_addPath_iterEntries es .nil hwf (fun k _ => rfl)]
  rfl

/-- Witness for C2 at the spec's sample tree `T`. -/
theorem claim_C2_witness : recursive_merge_dicts [sampleT] = sampleT :=
  claim_C2_merge_idempotent sampleEntries (by decide)

/-! ## Claims C3 and C9 -/

/-- C3, counterexample: on
`T = {1: 2, 3: {4: 5}, 6: {3: {7: 8}, 7: 10}, 7: 11}` the call
`recursive_get_values_from_key(T, 7)` does not return `[10, 11]`. -/
theorem claim_C3_counterexample :
    ¬recursive_get_values_from_key sampleT 7 = [.leaf 10, .leaf 11] := by
  decide

/-- C3, amended: `recursive_get_values_from_key(T, 7)` returns
`[11, 10, 8]` — each dict's own match is appended before its children
are scanned, so the root's `7: 11` comes first, then `7: 10` inside
the dict at key `6`, then `7: 8` inside the dict at `6 → 3`. -/
theorem claim_C3_amended_value :
    recursive_get_values_from_key sampleT 7 = [.leaf 11, .leaf 10, .leaf 8] := by
  decide

/-- The tree `{1: 2, 3: {4: 5}, 7: 2}` of the filter example. -/
def filterSampleT : Tree :=
  .branch (.cons 1 (.leaf 2)
          (.cons 3 (.branch (.cons 4 (.leaf 5) .nil))
          (.cons 7 (.leaf 2) .nil)))

/-- C9: `recursive_filter_dict` applies the predicate to every
selected leaf; dict values are recursed into and never deleted
themselves; a leaf with `False` is deleted together with its key, one
with `True` is kept (first conjunct, against the claim-side
`filterPure`); a non-boolean return fails the whole call with
`TypeError` naming the leaf value and the bad return (second
conjunct); and filtering `{1: 2, 3: {4: 5}, 7: 2}` with `v > 4` yields
`{3: {4: 5}}` — the key `7` is dropped because its leaf `2` fails the
predicate, while keys equal to filtered values are never removed for
being keys (third conjunct). -/
theorem claim_C9_filter_leaves :
    (∀ (es : Entries) (p : Nat → Bool) (perm : Bool),
        filterEntries es (fun n => .ok (if p n then .pTrue else .pFalse))
            none perm
          = .ok (filterPure es p)) ∧
    (∀ (k n m : Nat) (rest : Entries) (f : Nat → Except Unit PredRes)
        (perm : Bool),
        f n = .ok (.pOther m) →
        recursive_filter_dict (.branch (.cons k (.leaf n) rest)) f none perm
          = .error (.invalidPredicateResult n m)) ∧
    recursive_filter_dict filterSampleT
        (fun v => .ok (if v > 4 then .pTrue else .pFalse)) none false
      = .ok (.branch (.cons 3 (.branch (.cons 4 (.leaf 5) .nil)) .nil)) := by
  refine ⟨?_, ?_, rfl⟩
  · intro es p perm
    refine @entries_ind
      (fun v => ∀ es2, v = .branch es2 →
        filterEntries es2 (fun n => .ok (if p n then .pTrue else .pFalse))
            none perm
          = .ok (filterPure es2 p))
      (fun es =>
        filterEntries es (fun n => .ok (if p n then .pTrue else .pFalse))
            none perm
          = .ok (filterPure es p))
      ?_ ?_ ?_ ?_ es
    · intro n es2 h
      cases h
    · intro es2 ih es3 h
      cases h
      exact ih
    · simp [filterEntries, filterPure]
    · intro k v rest ihv ihrest
      cases v with
      | leaf n =>
          by_cases hp : p n <;>
            simp [filterEntries, filterPure, selKey, hp, ihrest, Except.map]
      | branch es2 =>
          simp [filterEntries, filterPure, ihv es2 rfl, ihrest]
  · intro k n m rest f perm hf
    simp [recursive_filter_dict, filterEntries, selKey, hf, Except.map]

/-- Witness for C9's non-boolean-return conjunct at a concrete
predicate returning the integer `5` for the leaf `2`. -/
theorem claim_C9_witness :
    recursive_filter_dict (.branch (.cons 1 (.leaf 2) .nil))
        (fun _ => .ok (.pOther 5)) none false
      = .error (.invalidPredicateResult 2 5) :=
  claim_C9_filter_leaves.2.1 1 2 5 .nil (fun _ => .ok (.pOther 5)) false rfl

/-! ## Heap model

Python object identity matters for the deep-copy and merge claims: a
dict is an object on a heap, a dict value is either an immutable leaf
or a reference to another dict object, and assigning a dict into
another dict stores the reference, not a copy.  A heap is a list of
dict objects indexed by address; allocation appends.  `copy.deepcopy`
allocates a structurally equal copy out of fresh cells; the order in
which the fresh cells are allocated is a model artifact (addresses are
abstract), the structure of the copy is not. -/

inductive HVal where
  | hleaf : Nat → HVal
  | href : Nat → HVal
deriving DecidableEq, Repr

abbrev HDict := List (Nat × HVal)

abbrev Heap := List HDict

/-- The dict object stored at address `a` (unallocated reads give the
empty dict; valid runs never produce them). -/
def readH (h : Heap) (a : Nat) : HDict := h.getD a []

/-- Replace the dict object stored at address `a`. -/
def writeH (h : Heap) (a : Nat) (d : HDict) : Heap := h.set a d

def lookupH : HDict → Nat → Option HVal
  | [], _ => none
  | (k2, v) :: rest, k => if k2 = k then some v else lookupH rest k

def setKeyH : HDict → Nat → HVal → HDict
  | [], k, v => [(k, v)]
  | (k2, v2) :: rest, k, v =>
      if k2 = k then (k, v) :: rest else (k2, v2) :: setKeyH rest k v

def delKeyH : HDict → Nat → HDict
  | [], _ => []
  | (k2, v2) :: rest, k =>
      if k2 = k then rest else (k2, v2) :: delKeyH rest k

mutual

/-- `copy.deepcopy` of a value: a leaf is immutable and returned as
is, a dict reference becomes a reference to a freshly allocated copy
whose values are deep copies in turn.  The fuel bounds the recursion
depth (Python recurses without bound on the acyclic dicts considered
here; any fuel at least the nesting depth is exact). -/
def deepCopyH : Nat → Heap → HVal → Heap × HVal
  | _, h, .hleaf n => (h, .hleaf n)
  | 0, h, .href _ => (h, .hleaf 0)
  | fuel + 1, h, .href a =>
      let r := copyEntriesH fuel h (readH h a)
      (r.1 ++ [r.2], .href r.1.length)

/-- Deep copies of a dict's entries, left to right. -/
def copyEntriesH : Nat → Heap → HDict → Heap × HDict
  | _, h, [] => (h, [])
  | fuel, h, (k, v) :: rest =>
      let r1 := deepCopyH fuel h v
      let r2 := copyEntriesH fuel r1.1 rest
      (r2.1, (k, r1.2) :: r2.2)

end

mutual

/-- Decode the tree rooted at a value (the structural content a
Python `==`-comparison or `repr` sees). -/
def treeAtH : Nat → Heap → HVal → Tree
  | _, _, .hleaf n => .leaf n
  | 0, _, .href _ => .leaf 0
  | fuel + 1, h, .href a => .branch (decodeEntriesH fuel h (readH h a))

/-- Decode a dict's entries. -/
def decodeEntriesH : Nat → Heap → HDict → Entries
  | _, _, [] => .nil
  | fuel, h, (k, v) :: rest =>
      .cons k (treeAtH fuel h v) (decodeEntriesH fuel h rest)

end

/-- `recursive_add`'s `recursive_step` on the heap: `d` is the current
value (a warning and no change when it is not a dict), the final key
stores `v` — which, when `v` is a reference, makes the stored entry an
alias of the caller's object — and a missing intermediate key first
receives a freshly allocated empty dict. -/
def addStepH : Heap → HVal → List Nat → HVal → Heap
  | h, .hleaf _, _, _ => h
  | h, .href _, [], _ => h
  | h, .href a, [k], v => writeH h a (setKeyH (readH h a) k v)
  | h, .href a, k :: rest, v =>
      match lookupH (readH h a) k with
      | some sub => addStepH h sub rest v
      | none =>
          addStepH
            (writeH h a (setKeyH (readH h a) k (.href h.length)) ++ [[]])
            (.href h.length) rest v

/-- Errors of the heap-level walks; the payloads (paths, values) are
carried by the pure model above, the heap model tracks the state. -/
inductive HErr where
  | keyNotFound : HErr
  | typeError : HErr
  | valueMismatch : HErr
  | couldNotApply : HErr
  | invalidPredicateResult : HErr
deriving DecidableEq, Repr

/-- `recursive_replace`'s `recursive_step` on the heap. -/
def replaceStepH : Heap → HVal → List Nat → HVal → Heap × Option HErr
  | h, d, [k], v =>
      match d with
      | .hleaf _ => (h, some .typeError)
      | .href a =>
          match lookupH (readH h a) k with
          | none => (h, some .keyNotFound)
          | some _ => (writeH h a (setKeyH (readH h a) k v), none)
  | h, d, k :: rest, v =>
      match d with
      | .hleaf _ => (h, some .typeError)
      | .href a =>
          match lookupH (readH h a) k with
          | some sub => replaceStepH h sub rest v
          | none => (h, none)
  | h, _, [], _ => (h, none)

/-- `recursive_remove`'s `recursive_step` on the heap.  The value
comparison at the final key is Python `==`, which is structural, so it
compares the decoded trees (`qf` is the decoding fuel). -/
def removeStepH (qf : Nat) : Heap → HVal → List Nat → HVal → Heap × Option HErr
  | h, .hleaf _, _, _ => (h, none)
  | h, .href a, [k], ev =>
      match lookupH (readH h a) k with
      | none => (h, some .keyNotFound)
      | some val =>
          if treeAtH qf h val = treeAtH qf h ev then
            (writeH h a (delKeyH (readH h a) k), none)
          else (h, some .valueMismatch)
  | h, .href a, k :: rest, ev =>
      match lookupH (readH h a) k with
      | some sub => removeStepH qf h sub rest ev
      | none => (h, none)
  | h, .href _, [], _ => (h, none)

mutual

/-- `recursive_map_dict`'s `recursive_step` on the heap: apply `f` to
every selected leaf of the dict at `a`, recursing into dict values. -/
def mapStepH : Nat → Heap → (Nat → Except Unit Nat) → Option (List Nat) →
    Bool → Nat → Heap × Option HErr
  | 0, h, _, _, _, _ => (h, none)
  | fuel + 1, h, f, keys, perm, a => mapItemsH fuel h f keys perm a (readH h a)

/-- The `for k, v in list(d.items())` loop of the map: the snapshot of
the entries is iterated while the heap evolves. -/
def mapItemsH : Nat → Heap → (Nat → Except Unit Nat) → Option (List Nat) →
    Bool → Nat → HDict → Heap × Option HErr
  | _, h, _, _, _, _, [] => (h, none)
  | fuel, h, f, keys, perm, a, (k, v) :: rest =>
      match v with
      | .href a2 =>
          let r := mapStepH fuel h f keys perm a2
          match r.2 with
          | some e => (r.1, some e)
          | none => mapItemsH fuel r.1 f keys perm a rest
      | .hleaf n =>
          if selKey keys k then
            match f n with
            | .error _ =>
                if perm then mapItemsH fuel h f keys perm a rest
                else (h, some .couldNotApply)
            | .ok m =>
                mapItemsH fuel (writeH h a (setKeyH (readH h a) k (.hleaf m)))
                  f keys perm a rest
          else mapItemsH fuel h f keys perm a rest

end

mutual

/-- `recursive_filter_dict`'s `recursive_step` on the heap. -/
def filterStepH : Nat → Heap → (Nat → Except Unit PredRes) →
    Option (List Nat) → Bool → Nat → Heap × Option HErr
  | 0, h, _, _, _, _ => (h, none)
  | fuel + 1, h, f, keys, perm, a => filterItemsH fuel h f keys perm a (readH h a)

/-- The `for k, v in list(d.items())` loop of the filter. -/
def filterItemsH : Nat → Heap → (Nat → Except Unit PredRes) →
    Option (List Nat) → Bool → Nat → HDict → Heap × Option HErr
  | _, h, _, _, _, _, [] => (h, none)
  | fuel, h, f, keys, perm, a, (k, v) :: rest =>
      match v with
      | .href a2 =>
          let r := filterStepH fuel h f keys perm a2
          match r.2 with
          | some e => (r.1, some e)
          | none => filterItemsH fuel r.1 f keys perm a rest
      | .hleaf n =>
          if selKey keys k then
            match f n with
            | .error _ =>
                if perm then filterItemsH fuel h f keys perm a rest
                else (h, some .couldNotApply)
            | .ok .pFalse =>
                filterItemsH fuel (writeH h a (delKeyH (readH h a) k))
                  f keys perm a rest
            | .ok .pTrue => filterItemsH fuel h f keys perm a rest
            | .ok (.pOther _) => (h, some .invalidPredicateResult)
          else filterItemsH fuel h f keys perm a rest

end

/-! The `in_place=False` wrappers: deep-copy the input dict at `a`,
run the walk on the copy, return the final heap and the copy's root
(`fuel` bounds the copy and walk depth). -/

def recursive_add_heap (h : Heap) (a : Nat) (kp : List Nat × HVal)
    (fuel : Nat) : Heap × HVal :=
  let r := deepCopyH fuel h (.href a)
  (addStepH r.1 r.2 kp.1 kp.2, r.2)

def recursive_replace_heap (h : Heap) (a : Nat) (kp : List Nat × HVal)
    (fuel : Nat) : Heap × Option HErr × HVal :=
  let r := deepCopyH fuel h (.href a)
  let s := replaceStepH r.1 r.2 kp.1 kp.2
  (s.1, s.2, r.2)

def recursive_remove_heap (h : Heap) (a : Nat) (kp : List Nat × HVal)
    (fuel : Nat) : Heap × Option HErr × HVal :=
  let r := deepCopyH fuel h (.href a)
  let s := removeStepH fuel r.1 r.2 kp.1 kp.2
  (s.1, s.2, r.2)

def recursive_map_dict_heap (h : Heap) (a : Nat) (f : Nat → Except Unit Nat)
    (keys : Option (List Nat)) (perm : Bool) (fuel : Nat) :
    Heap × Option HErr × HVal :=
  let r := deepCopyH fuel h (.href a)
  match r.2 with
  | .href c =>
      let s := mapStepH fuel r.1 f keys perm c
      (s.1, s.2, .href c)
  | .hleaf n => (r.1, none, .hleaf n)

def recursive_filter_dict_heap (h : Heap) (a : Nat)
    (f : Nat → Except Unit PredRes) (keys : Option (List Nat)) (perm : Bool)
    (fuel : Nat) : Heap × Option HErr × HVal :=
  let r := deepCopyH fuel h (.href a)
  match r.2 with
  | .href c =>
      let s := filterStepH fuel r.1 f keys perm c
      (s.1, s.2, .href c)
  | .hleaf n => (r.1, none, .hleaf n)

/-! ## `recursive_merge_dicts` on the heap (utils.py lines 845-948)

The merged dict starts as a fresh empty dict; every input dict's key
paths are chained in order (the values yielded are the stored heap
values, i.e. references for dict values), deduplicated by path keeping
first occurrences, and inserted via `recursive_add` with
`in_place=True` — storing references to the input dicts' sub-objects
directly into the merged dict. -/

mutual

/-- `recursive_iter_key_paths` over the heap. -/
def iterKPH : Nat → Heap → Nat → List Nat → List (List Nat × HVal)
  | 0, _, _, _ => []
  | fuel + 1, h, a, path => iterItemsH fuel h (readH h a) path

/-- The `for key, val in d.items()` loop of the iterator. -/
def iterItemsH : Nat → Heap → HDict → List Nat → List (List Nat × HVal)
  | _, _, [], _ => []
  | fuel, h, (k, v) :: rest, path =>
      (match v with
       | .href a2 => iterKPH fuel h a2 (path ++ [k])
       | .hleaf _ => []) ++ [(path ++ [k], v)] ++ iterItemsH fuel h rest path

end

/-- The deduplication loop of `recursive_merge_dicts`. -/
def dedupByPathH : List (List Nat × HVal) → List (List Nat) →
    List (List Nat × HVal)
  | [], _ => []
  | (p, v) :: rest, seen =>
      if p ∈ seen then dedupByPathH rest seen
      else (p, v) :: dedupByPathH rest (p :: seen)

/-- `recursive_merge_dicts(dicts)` on the heap: returns the final heap
and the merged dict's address. -/
def recursive_merge_dicts_heap (h : Heap) (addrs : List Nat) (fuel : Nat) :
    Heap × Nat :=
  let kps := (addrs.map (fun a => iterKPH fuel h a [])).flatten
  let deduped := dedupByPathH kps []
  let m := h.length
  (deduped.foldl (fun acc pv => addStepH acc (.href m) pv.1 pv.2) (h ++ [[]]),
   m)

/-! ## Heap lemmas -/

theorem readH_writeH_ne : ∀ (h : Heap) (a b : Nat) (d : HDict), a ≠ b →
    readH (writeH h a d) b = readH h b := by
  intro h
  induction h with
  | nil => intro a b d _; rfl
  | cons c t ih =>
      intro a b d hne
      cases a with
      | zero =>
          cases b with
          | zero => exact absurd rfl hne
          | succ b2 => rfl
      | succ a2 =>
          cases b with
          | zero => rfl
          | succ b2 =>
              have := ih a2 b2 d (fun hcon => hne (by rw [hcon]))
              simpa [readH, writeH, List.getD] using this

theorem writeH_length (h : Heap) (a : Nat) (d : HDict) :
    (writeH h a d).length = h.length :=
  List.length_set h a d

theorem readH_append_lt : ∀ (h : Heap) (ext : Heap) (b : Nat),
    b < h.length → readH (h ++ ext) b = readH h b := by
  intro h
  induction h with
  | nil => intro ext b hb; simp at hb
  | cons c t ih =>
      intro ext b hb
      cases b with
      | zero => rfl
      | succ b2 =>
          have := ih ext b2 (by simpa using hb)
          simpa [readH, List.getD] using this

theorem readH_ge_length : ∀ (h : Heap) (b : Nat), h.length ≤ b →
    readH h b = [] := by
  intro h
  induction h with
  | nil => intro b _; rfl
  | cons c t ih =>
      intro b hb
      cases b with
      | zero => simp at hb
      | succ b2 =>
          have := ih b2 (by simpa using hb)
          simpa [readH, List.getD] using this

theorem writeH_ge (h : Heap) (a : Nat) (d : HDict) (hle : h.length ≤ a) :
    writeH h a d = h := by
  induction h generalizing a with
  | nil => rfl
  | cons c t ih =>
      cases a with
      | zero => simp at hle
      | succ a2 =>
          have := ih a2 (by simpa using hle)
          simpa [writeH, List.set] using this

theorem readH_writeH_self (h : Heap) (a : Nat) (d : HDict)
    (ha : a < h.length) : readH (writeH h a d) a = d := by
  induction h generalizing a with
  | nil => simp at ha
  | cons c t ih =>
      cases a with
      | zero => rfl
      | succ a2 =>
          have := ih a2 (by simpa using ha)
          simpa [readH, writeH, List.set, List.getD] using this

theorem readH_writeH_or (h : Heap) (a b : Nat) (d : HDict) :
    readH (writeH h a d) b = readH h b ∨ readH (writeH h a d) b = d := by
  by_cases hab : a = b
  · subst hab
    by_cases ha : a < h.length
    · exact .inr (readH_writeH_self h a d ha)
    · rw [writeH_ge h a d (Nat.le_of_not_lt ha)]
      exact .inl rfl
  · exact .inl (readH_writeH_ne h a b d hab)

theorem readH_concat_or (h : Heap) (d : HDict) (b : Nat) :
    readH (h ++ [d]) b = readH h b ∨ readH (h ++ [d]) b = d := by
  rcases Nat.lt_trichotomy b h.length with hb | hb | hb
  · exact .inl (readH_append_lt h [d] b hb)
  · subst hb
    right
    induction h with
    | nil => rfl
    | cons c t ih => simp only [readH, List.getD] at ih ⊢; simp [ih]
  · left
    rw [readH_ge_length (h ++ [d]) b (by simpa using hb),
      readH_ge_length h b (Nat.le_of_lt hb)]

/-! ## Freshness invariant: every reference stored in a cell at an
address `≥ N` points at an address `≥ N` (the region of cells
allocated after the original heap of length `N` is closed). -/

def hvalGE (N : Nat) : HVal → Bool
  | .hleaf _ => true
  | .href a => decide (N ≤ a)

def cellGE (N : Nat) (d : HDict) : Bool := d.all (fun e => hvalGE N e.2)

def heapFreshInv (h : Heap) (N : Nat) : Prop :=
  ∀ b, N ≤ b → cellGE N (readH h b) = true

theorem heapFreshInv_self (h : Heap) : heapFreshInv h h.length := by
  intro b hb
  rw [readH_ge_length h b hb]
  rfl

theorem cellGE_lookupH : ∀ (d : HDict) (N k : Nat) (v : HVal),
    cellGE N d = true → lookupH d k = some v → hvalGE N v = true := by
  intro d
  induction d with
  | nil => intro N k v _ hl; simp [lookupH] at hl
  | cons e rest ih =>
      intro N k v hc hl
      obtain ⟨k2, v2⟩ := e
      simp only [cellGE, List.all_cons, Bool.and_eq_true] at hc
      rw [lookupH] at hl
      by_cases hk : k2 = k
      · rw [if_pos hk] at hl
        cases hl
        exact hc.1
      · rw [if_neg hk] at hl
        exact ih N k v hc.2 hl

theorem cellGE_setKeyH : ∀ (d : HDict) (N k : Nat) (v : HVal),
    cellGE N d = true → hvalGE N v = true →
    cellGE N (setKeyH d k v) = true := by
  intro d
  induction d with
  | nil =>
      intro N k v _ hv
      simp [setKeyH, cellGE, hv]
  | cons e rest ih =>
      intro N k v hc hv
      obtain ⟨k2, v2⟩ := e
      simp only [cellGE, List.all_cons, Bool.and_eq_true] at hc
      rw [setKeyH]
      by_cases hk : k2 = k
      · rw [if_pos hk]
        simp [cellGE, hv, hc.2]
      · rw [if_neg hk]
        have := ih N k v hc.2 hv
        simp [cellGE, hc.1] at this ⊢
        exact this

theorem cellGE_delKeyH : ∀ (d : HDict) (N k : Nat),
    cellGE N d = true → cellGE N (delKeyH d k) = true := by
  intro d
  induction d with
  | nil => intro N k _; rfl
  | cons e rest ih =>
      intro N k hc
      obtain ⟨k2, v2⟩ := e
      simp only [cellGE, List.all_cons, Bool.and_eq_true] at hc
      rw [delKeyH]
      by_cases hk : k2 = k
      · rw [if_pos hk]
        exact hc.2
      · rw [if_neg hk]
        have := ih N k hc.2
        simp [cellGE, hc.1] at this ⊢
        exact this

theorem heapFreshInv_writeH {h : Heap} {N : Nat} (hinv : heapFreshInv h N)
    (a : Nat) {d : HDict} (hd : cellGE N d = true) :
    heapFreshInv (writeH h a d) N := by
  intro b hb
  rcases readH_writeH_or h a b d with heq | heq <;> rw [heq]
  · exact hinv b hb
  · exact hd

theorem heapFreshInv_concat {h : Heap} {N : Nat} (hinv : heapFreshInv h N)
    {d : HDict} (hd : cellGE N d = true) :
    heapFreshInv (h ++ [d]) N := by
  intro b hb
  rcases readH_concat_or h d b with heq | heq <;> rw [heq]
  · exact hinv b hb
  · exact hd

/-! ## Deep-copy lemmas: the copy only appends fresh cells, and the
fresh region is closed (its references stay in the fresh region). -/

theorem copyEntriesH_extends (fuel : Nat)
    (hdc : ∀ (h : Heap) (v : HVal), ∃ ext, (deepCopyH fuel h v).1 = h ++ ext) :
    ∀ (d : HDict) (h : Heap), ∃ ext, (copyEntriesH fuel h d).1 = h ++ ext := by
  intro d
  induction d with
  | nil => intro h; exact ⟨[], by simp [copyEntriesH]⟩
  | cons e rest ih =>
      intro h
      obtain ⟨k, v⟩ := e
      obtain ⟨e1, he1⟩ := hdc h v
      obtain ⟨e2, he2⟩ := ih (deepCopyH fuel h v).1
      refine ⟨e1 ++ e2, ?_⟩
      simp only [copyEntriesH]
      rw [he2, he1, List.append_assoc]

theorem deepCopyH_extends : ∀ (fuel : Nat) (h : Heap) (v : HVal),
    ∃ ext, (deepCopyH fuel h v).1 = h ++ ext := by
  intro fuel
  induction fuel with
  | zero =>
      intro h v
      cases v with
      | hleaf n => exact ⟨[], by simp [deepCopyH]⟩
      | href a => exact ⟨[], by simp [deepCopyH]⟩
  | succ n ih =>
      intro h v
      cases v with
      | hleaf m => exact ⟨[], by simp [deepCopyH]⟩
      | href a =>
          obtain ⟨e, he⟩ := copyEntriesH_extends n ih (readH h a) h
          refine ⟨e ++ [(copyEntriesH n h (readH h a)).2], ?_⟩
          simp only [deepCopyH, he, List.append_assoc]

theorem copyEntriesH_inv (fuel N : Nat)
    (hdc : ∀ (h : Heap) (v : HVal), heapFreshInv h N → N ≤ h.length →
      heapFreshInv (deepCopyH fuel h v).1 N ∧
        hvalGE N (deepCopyH fuel h v).2 = true) :
    ∀ (d : HDict) (h : Heap), heapFreshInv h N → N ≤ h.length →
      heapFreshInv (copyEntriesH fuel h d).1 N ∧
        cellGE N (copyEntriesH fuel h d).2 = true := by
  intro d
  induction d with
  | nil =>
      intro h hinv _
      exact ⟨by simpa [copyEntriesH] using hinv, by simp [copyEntriesH, cellGE]⟩
  | cons e rest ih =>
      intro h hinv hlen
      obtain ⟨k, v⟩ := e
      obtain ⟨hinv1, hval1⟩ := hdc h v hinv hlen
      obtain ⟨ext, hext⟩ := deepCopyH_extends fuel h v
      have hlen1 : N ≤ (deepCopyH fuel h v).1.length := by
        rw [hext]
        exact Nat.le_trans hlen (by simp)
      obtain ⟨hinv2, hcell2⟩ := ih (deepCopyH fuel h v).1 hinv1 hlen1
      refine ⟨by simpa [copyEntriesH] using hinv2, ?_⟩
      simp only [copyEntriesH, cellGE, List.all_cons, Bool.and_eq_true]
      exact ⟨hval1, hcell2⟩

theorem deepCopyH_inv : ∀ (fuel N : Nat) (h : Heap) (v : HVal),
    heapFreshInv h N → N ≤ h.length →
    heapFreshInv (deepCopyH fuel h v).1 N ∧
      hvalGE N (deepCopyH fuel h v).2 = true := by
  intro fuel
  induction fuel with
  | zero =>
      intro N h v hinv _
      cases v with
      | hleaf n => exact ⟨by simpa [deepCopyH] using hinv, by simp [deepCopyH, hvalGE]⟩
      | href a => exact ⟨by simpa [deepCopyH] using hinv, by simp [deepCopyH, hvalGE]⟩
  | succ n ih =>
      intro N h v hinv hlen
      cases v with
      | hleaf m => exact ⟨by simpa [deepCopyH] using hinv, by simp [deepCopyH, hvalGE]⟩
      | href a =>
          obtain ⟨hinv1, hcell1⟩ :=
            copyEntriesH_inv n N (fun h2 v2 => ih N h2 v2) (readH h a) h hinv
              hlen
          obtain ⟨ext, hext⟩ :=
            copyEntriesH_extends n (fun h2 v2 => deepCopyH_extends n h2 v2)
              (readH h a) h
          constructor
          · simp only [deepCopyH]
            exact heapFreshInv_concat hinv1 hcell1
          · simp only [deepCopyH, hvalGE, decide_eq_true_eq, hext]
            exact Nat.le_trans hlen (by simp)

/-! ## Frame lemmas: each walk writes only at addresses `≥ N` when it
starts from a value whose references lie in the closed region
`≥ N`. -/

theorem readH_ne_of_lt {h : Heap} {N a b : Nat} (ha : N ≤ a) (hb : b < N)
    (d : HDict) : readH (writeH h a d) b = readH h b :=
  readH_writeH_ne h a b d
    (fun hcon => absurd hb (by rw [← hcon]; exact Nat.not_lt.2 ha))

theorem addStepH_frame : ∀ (path : List Nat) (h : Heap) (d v : HVal)
    (N : Nat), heapFreshInv h N → N ≤ h.length → hvalGE N d = true →
    ∀ b, b < N → readH (addStepH h d path v) b = readH h b := by
  intro path
  induction path with
  | nil =>
      intro h d v N _ _ _ b _
      cases d <;> rfl
  | cons k tail ih =>
      intro h d v N hinv hlen hd b hb
      cases d with
      | hleaf n => rfl
      | href a =>
          have ha : N ≤ a := by simpa [hvalGE] using hd
          cases tail with
          | nil => exact readH_ne_of_lt ha hb _
          | cons r t =>
              match hl : lookupH (readH h a) k with
              | some sub =>
                  have hsub : hvalGE N sub = true :=
                    cellGE_lookupH (readH h a) N k sub (hinv a ha) hl
                  have hstep : addStepH h (.href a) (k :: r :: t) v
                      = addStepH h sub (r :: t) v := by
                    simp only [addStepH, hl]
                  rw [hstep]
                  exact ih h sub v N hinv hlen hsub b hb
              | none =>
                  set h1 : Heap :=
                    writeH h a (setKeyH (readH h a) k (.href h.length)) ++ [[]]
                    with hh1
                  have hcellGE :
                      cellGE N (setKeyH (readH h a) k (.href h.length))
                        = true := by
                    refine cellGE_setKeyH (readH h a) N k _ (hinv a ha) ?_
                    simp [hvalGE, hlen]
                  have hinv1 : heapFreshInv h1 N :=
                    heapFreshInv_concat (heapFreshInv_writeH hinv a hcellGE)
                      rfl
                  have hlen1 : N ≤ h1.length := by
                    rw [hh1]
                    simp only [List.length_append, writeH_length]
                    exact Nat.le_trans hlen (Nat.le_add_right _ _)
                  have hread1 : ∀ c, c < N → readH h1 c = readH h c := by
                    intro c hc
                    rw [hh1, readH_append_lt _ _ c
                      (by rw [writeH_length]; exact Nat.lt_of_lt_of_le hc hlen)]
                    exact readH_ne_of_lt ha hc _
                  have hstep : addStepH h (.href a) (k :: r :: t) v
                      = addStepH h1 (.href h.length) (r :: t) v := by
                    simp only [addStepH, hl]
                  rw [hstep,
                    ih h1 (.href h.length) v N hinv1 hlen1
                      (by simp [hvalGE, hlen]) b hb]
                  exact hread1 b hb

theorem replaceStepH_frame : ∀ (path : List Nat) (h : Heap) (d v : HVal)
    (N : Nat), heapFreshInv h N → hvalGE N d = true →
    ∀ b, b < N → readH (replaceStepH h d path v).1 b = readH h b := by
  intro path
  induction path with
  | nil =>
      intro h d v N _ _ b _
      rfl
  | cons k tail ih =>
      intro h d v N hinv hd b hb
      cases d with
      | hleaf n => cases tail <;> rfl
      | href a =>
          have ha : N ≤ a := by simpa [hvalGE] using hd
          cases tail with
          | nil =>
              match hl : lookupH (readH h a) k with
              | none =>
                  have hstep : (replaceStepH h (.href a) [k] v).1 = h := by
                    simp only [replaceStepH, hl]
                  rw [hstep]
              | some w =>
                  have hstep : (replaceStepH h (.href a) [k] v).1
                      = writeH h a (setKeyH (readH h a) k v) := by
                    simp only [replaceStepH, hl]
                  rw [hstep]
                  exact readH_ne_of_lt ha hb _
          | cons r t =>
              match hl : lookupH (readH h a) k with
              | some sub =>
                  have hsub : hvalGE N sub = true :=
                    cellGE_lookupH (readH h a) N k sub (hinv a ha) hl
                  have hstep : (replaceStepH h (.href a) (k :: r :: t) v).1
                      = (replaceStepH h sub (r :: t) v).1 := by
                    simp only [replaceStepH, hl]
                  rw [hstep]
                  exact ih h sub v N hinv hsub b hb
              | none =>
                  have hstep : (replaceStepH h (.href a) (k :: r :: t) v).1
                      = h := by
                    simp only [replaceStepH, hl]
                  rw [hstep]

theorem removeStepH_frame (qf : Nat) : ∀ (path : List Nat) (h : Heap)
    (d ev : HVal) (N : Nat), heapFreshInv h N → hvalGE N d = true →
    ∀ b, b < N → readH (removeStepH qf h d path ev).1 b = readH h b := by
  intro path
  induction path with
  | nil =>
      intro h d ev N _ _ b _
      cases d <;> rfl
  | cons k tail ih =>
      intro h d ev N hinv hd b hb
      cases d with
      | hleaf n => rfl
      | href a =>
          have ha : N ≤ a := by simpa [hvalGE] using hd
          cases tail with
          | nil =>
              match hl : lookupH (readH h a) k with
              | none =>
                  have hstep : (removeStepH qf h (.href a) [k] ev).1 = h := by
                    simp only [removeStepH, hl]
                  rw [hstep]
              | some val =>
                  by_cases heq : treeAtH qf h val = treeAtH qf h ev
                  · have hstep : (removeStepH qf h (.href a) [k] ev).1
                        = writeH h a (delKeyH (readH h a) k) := by
                      simp only [removeStepH, hl, heq, if_true]
                    rw [hstep]
                    exact readH_ne_of_lt ha hb _
                  · have hstep : (removeStepH qf h (.href a) [k] ev).1
                        = h := by
                      simp only [removeStepH, hl, heq, if_false]
                    rw [hstep]
          | cons r t =>
              match hl : lookupH (readH h a) k with
              | some sub =>
                  have hsub : hvalGE N sub = true :=
                    cellGE_lookupH (readH h a) N k sub (hinv a ha) hl
                  have hstep : (removeStepH qf h (.href a) (k :: r :: t) ev).1
                      = (removeStepH qf h sub (r :: t) ev).1 := by
                    simp only [removeStepH, hl]
                  rw [hstep]
                  exact ih h sub ev N hinv hsub b hb
              | none =>
                  have hstep : (removeStepH qf h (.href a) (k :: r :: t) ev).1
                      = h := by
                    simp only [removeStepH, hl]
                  rw [hstep]

theorem mapItemsH_frame (fuel N : Nat)
    (hstep : ∀ (h : Heap) (f : Nat → Except Unit Nat)
      (keys : Option (List Nat)) (perm : Bool) (a : Nat),
      heapFreshInv h N → N ≤ a →
      (∀ b, b < N → readH (mapStepH fuel h f keys perm a).1 b = readH h b) ∧
      heapFreshInv (mapStepH fuel h f keys perm a).1 N) :
    ∀ (d : HDict) (h : Heap) (f : Nat → Except Unit Nat)
      (keys : Option (List Nat)) (perm : Bool) (a : Nat),
      heapFreshInv h N → N ≤ a → cellGE N d = true →
      (∀ b, b < N →
        readH (mapItemsH fuel h f keys perm a d).1 b = readH h b) ∧
      heapFreshInv (mapItemsH fuel h f keys perm a d).1 N := by
  intro d
  induction d with
  | nil =>
      intro h f keys perm a hinv _ _
      exact ⟨fun b _ => by simp [mapItemsH], by simpa [mapItemsH] using hinv⟩
  | cons e rest ih =>
      intro h f keys perm a hinv ha hcell
      obtain ⟨k, v⟩ := e
      simp only [cellGE, List.all_cons, Bool.and_eq_true] at hcell
      cases v with
      | href a2 =>
          have ha2 : N ≤ a2 := by simpa [hvalGE] using hcell.1
          obtain ⟨hf1, hi1⟩ := hstep h f keys perm a2 hinv ha2
          match hr : (mapStepH fuel h f keys perm a2).2 with
          | some e2 =>
              have heq : (mapItemsH fuel h f keys perm a ((k, .href a2) :: rest)).1
                  = (mapStepH fuel h f keys perm a2).1 := by
                simp [mapItemsH, hr]
              rw [heq]
              exact ⟨hf1, hi1⟩
          | none =>
              obtain ⟨hf2, hi2⟩ :=
                ih (mapStepH fuel h f keys perm a2).1 f keys perm a hi1 ha
                  hcell.2
              have heq : (mapItemsH fuel h f keys perm a ((k, .href a2) :: rest)).1
                  = (mapItemsH fuel (mapStepH fuel h f keys perm a2).1 f keys
                      perm a rest).1 := by
                simp [mapItemsH, hr]
              rw [heq]
              exact ⟨fun b hb => (hf2 b hb).trans (hf1 b hb), hi2⟩
      | hleaf n =>
          cases hsel : selKey keys k with
          | false =>
              obtain ⟨hf2, hi2⟩ := ih h f keys perm a hinv ha hcell.2
              have heq : (mapItemsH fuel h f keys perm a ((k, .hleaf n) :: rest)).1
                  = (mapItemsH fuel h f keys perm a rest).1 := by
                simp [mapItemsH, hsel]
              rw [heq]
              exact ⟨hf2, hi2⟩
          | true =>
              match hfn : f n with
              | .error u =>
                  cases perm with
                  | true =>
                      obtain ⟨hf2, hi2⟩ := ih h f keys true a hinv ha hcell.2
                      have heq : (mapItemsH fuel h f keys true a
                            ((k, .hleaf n) :: rest)).1
                          = (mapItemsH fuel h f keys true a rest).1 := by
                        simp [mapItemsH, hsel, hfn]
                      rw [heq]
                      exact ⟨hf2, hi2⟩
                  | false =>
                      have heq : (mapItemsH fuel h f keys false a
                            ((k, .hleaf n) :: rest)).1 = h := by
                        simp [mapItemsH, hsel, hfn]
                      rw [heq]
                      exact ⟨fun b _ => rfl, hinv⟩
              | .ok m =>
                  have hcell1 : cellGE N (setKeyH (readH h a) k (.hleaf m))
                      = true :=
                    cellGE_setKeyH (readH h a) N k _ (hinv a ha) rfl
                  have hinv1 : heapFreshInv
                      (writeH h a (setKeyH (readH h a) k (.hleaf m))) N :=
                    heapFreshInv_writeH hinv a hcell1
                  obtain ⟨hf2, hi2⟩ :=
                    ih (writeH h a (setKeyH (readH h a) k (.hleaf m))) f keys
                      perm a hinv1 ha hcell.2
                  have heq : (mapItemsH fuel h f keys perm a
                        ((k, .hleaf n) :: rest)).1
                      = (mapItemsH fuel
                          (writeH h a (setKeyH (readH h a) k (.hleaf m))) f
                          keys perm a rest).1 := by
                    simp [mapItemsH, hsel, hfn]
                  rw [heq]
                  refine ⟨fun b hb => ?_, hi2⟩
                  rw [hf2 b hb]
                  exact readH_ne_of_lt ha hb _

theorem mapStepH_frame : ∀ (fuel N : Nat) (h : Heap)
    (f : Nat → Except Unit Nat) (keys : Option (List Nat)) (perm : Bool)
    (a : Nat), heapFreshInv h N → N ≤ a →
    (∀ b, b < N → readH (mapStepH fuel h f keys perm a).1 b = readH h b) ∧
    heapFreshInv (mapStepH fuel h f keys perm a).1 N := by
  intro fuel
  induction fuel with
  | zero =>
      intro N h f keys perm a hinv _
      exact ⟨fun b _ => by simp [mapStepH], by simpa [mapStepH] using hinv⟩
  | succ n ih =>
      intro N h f keys perm a hinv ha
      have hitems :=
        mapItemsH_frame n N (fun h2 f2 keys2 perm2 a2 => ih N h2 f2 keys2
          perm2 a2) (readH h a) h f keys perm a hinv ha (hinv a ha)
      have heq : (mapStepH (n + 1) h f keys perm a).1
          = (mapItemsH n h f keys perm a (readH h a)).1 := by
        simp [mapStepH]
      rw [heq]
      exact hitems

theorem filterItemsH_frame (fuel N : Nat)
    (hstep : ∀ (h : Heap) (f : Nat → Except Unit PredRes)
      (keys : Option (List Nat)) (perm : Bool) (a : Nat),
      heapFreshInv h N → N ≤ a →
      (∀ b, b < N →
        readH (filterStepH fuel h f keys perm a).1 b = readH h b) ∧
      heapFreshInv (filterStepH fuel h f keys perm a).1 N) :
    ∀ (d : HDict) (h : Heap) (f : Nat → Except Unit PredRes)
      (keys : Option (List Nat)) (perm : Bool) (a : Nat),
      heapFreshInv h N → N ≤ a → cellGE N d = true →
      (∀ b, b < N →
        readH (filterItemsH fuel h f keys perm a d).1 b = readH h b) ∧
      heapFreshInv (filterItemsH fuel h f keys perm a d).1 N := by
  intro d
  induction d with
  | nil =>
      intro h f keys perm a hinv _ _
      exact ⟨fun b _ => by simp [filterItemsH],
        by simpa [filterItemsH] using hinv⟩
  | cons e rest ih =>
      intro h f keys perm a hinv ha hcell
      obtain ⟨k, v⟩ := e
      simp only [cellGE, List.all_cons, Bool.and_eq_true] at hcell
      cases v with
      | href a2 =>
          have ha2 : N ≤ a2 := by simpa [hvalGE] using hcell.1
          obtain ⟨hf1, hi1⟩ := hstep h f keys perm a2 hinv ha2
          match hr : (filterStepH fuel h f keys perm a2).2 with
          | some e2 =>
              have heq : (filterItemsH fuel h f keys perm a
                    ((k, .href a2) :: rest)).1
                  = (filterStepH fuel h f keys perm a2).1 := by
                simp [filterItemsH, hr]
              rw [heq]
              exact ⟨hf1, hi1⟩
          | none =>
              obtain ⟨hf2, hi2⟩ :=
                ih (filterStepH fuel h f keys perm a2).1 f keys perm a hi1 ha
                  hcell.2
              have heq : (filterItemsH fuel h f keys perm a
                    ((k, .href a2) :: rest)).1
                  = (filterItemsH fuel (filterStepH fuel h f keys perm a2).1 f
                      keys perm a rest).1 := by
                simp [filterItemsH, hr]
              rw [heq]
              exact ⟨fun b hb => (hf2 b hb).trans (hf1 b hb), hi2⟩
      | hleaf n =>
          cases hsel : selKey keys k with
          | false =>
              obtain ⟨hf2, hi2⟩ := ih h f keys perm a hinv ha hcell.2
              have heq : (filterItemsH fuel h f keys perm a
                    ((k, .hleaf n) :: rest)).1
                  = (filterItemsH fuel h f keys perm a rest).1 := by
                simp [filterItemsH, hsel]
              rw [heq]
              exact ⟨hf2, hi2⟩
          | true =>
              match hfn : f n with
              | .error u =>
                  cases perm with
                  | true =>
                      obtain ⟨hf2, hi2⟩ := ih h f keys true a hinv ha hcell.2
                      have heq : (filterItemsH fuel h f keys true a
                            ((k, .hleaf n) :: rest)).1
                          = (filterItemsH fuel h f keys true a rest).1 := by
                        simp [filterItemsH, hsel, hfn]
                      rw [heq]
                      exact ⟨hf2, hi2⟩
                  | false =>
                      have heq : (filterItemsH fuel h f keys false a
                            ((k, .hleaf n) :: rest)).1 = h := by
                        simp [filterItemsH, hsel, hfn]
                      rw [heq]
                      exact ⟨fun b _ => rfl, hinv⟩
              | .ok .pTrue =>
                  obtain ⟨hf2, hi2⟩ := ih h f keys perm a hinv ha hcell.2
                  have heq : (filterItemsH fuel h f keys perm a
                        ((k, .hleaf n) :: rest)).1
                      = (filterItemsH fuel h f keys perm a rest).1 := by
                    simp [filterItemsH, hsel, hfn]
                  rw [heq]
                  exact ⟨hf2, hi2⟩
              | .ok .pFalse =>
                  have hcell1 : cellGE N (delKeyH (readH h a) k) = true :=
                    cellGE_delKeyH (readH h a) N k (hinv a ha)
                  have hinv1 : heapFreshInv
                      (writeH h a (delKeyH (readH h a) k)) N :=
                    heapFreshInv_writeH hinv a hcell1
                  obtain ⟨hf2, hi2⟩ :=
                    ih (writeH h a (delKeyH (readH h a) k)) f keys perm a
                      hinv1 ha hcell.2
                  have heq : (filterItemsH fuel h f keys perm a
                        ((k, .hleaf n) :: rest)).1
                      = (filterItemsH fuel
                          (writeH h a (delKeyH (readH h a) k)) f keys perm a
                          rest).1 := by
                    simp [filterItemsH, hsel, hfn]
                  rw [heq]
                  refine ⟨fun b hb => ?_, hi2⟩
                  rw [hf2 b hb]
                  exact readH_ne_of_lt ha hb _
              | .ok (.pOther m) =>
                  have heq : (filterItemsH fuel h f keys perm a
                        ((k, .hleaf n) :: rest)).1 = h := by
                    simp [filterItemsH, hsel, hfn]
                  rw [heq]
                  exact ⟨fun b _ => rfl, hinv⟩

theorem filterStepH_frame : ∀ (fuel N : Nat) (h : Heap)
    (f : Nat → Except Unit PredRes) (keys : Option (List Nat)) (perm : Bool)
    (a : Nat), heapFreshInv h N → N ≤ a →
    (∀ b, b < N →
      readH (filterStepH fuel h f keys perm a).1 b = readH h b) ∧
    heapFreshInv (filterStepH fuel h f keys perm a).1 N := by
  intro fuel
  induction fuel with
  | zero =>
      intro N h f keys perm a hinv _
      exact ⟨fun b _ => by simp [filterStepH], by simpa [filterStepH] using hinv⟩
  | succ n ih =>
      intro N h f keys perm a hinv ha
      have hitems :=
        filterItemsH_frame n N (fun h2 f2 keys2 perm2 a2 => ih N h2 f2 keys2
          perm2 a2) (readH h a) h f keys perm a hinv ha (hinv a ha)
      have heq : (filterStepH (n + 1) h f keys perm a).1
          = (filterItemsH n h f keys perm a (readH h a)).1 := by
        simp [filterStepH]
      rw [heq]
      exact hitems

/-! ## Claims C4 and C8 -/

/-- The heap holding the two inputs of the merge example:
address 0 is `{1: 2, 3: <ref 1>}` with address 1 `{4: 5}` (together
the dict `{1: 2, 3: {4: 5}}`), address 2 is `{3: <ref 3>}` with
address 3 `{17: 18}` (the dict `{3: {17: 18}}`). -/
def mergeBugHeap : Heap :=
  [[(1, .hleaf 2), (3, .href 1)], [(4, .hleaf 5)],
   [(3, .href 3)], [(17, .hleaf 18)]]

/-- C4 fails on the code: `recursive_merge_dicts` stores references to
the input dicts' sub-objects in the merged dict (the linearization
yields the stored values, and `recursive_add` assigns them directly),
and later insertions descend through those references.  Merging
`{1: 2, 3: {4: 5}}` with `{3: {17: 18}}` inserts `17: 18` into the
first input's sub-dict at key `3`: the object at address 1 grows from
`{4: 5}` to `{4: 5, 17: 18}`, and the first input tree decodes as
`{1: 2, 3: {4: 5, 17: 18}}` after the call — the input is mutated and
the result shares sub-structure with it. -/
theorem claim_C4_merge_mutates_input :
    treeAtH 10 mergeBugHeap (.href 0)
      = .branch (.cons 1 (.leaf 2)
          (.cons 3 (.branch (.cons 4 (.leaf 5) .nil)) .nil)) ∧
    readH mergeBugHeap 1 = [(4, .hleaf 5)] ∧
    treeAtH 10 (recursive_merge_dicts_heap mergeBugHeap [0, 2] 10).1 (.href 0)
      = .branch (.cons 1 (.leaf 2)
          (.cons 3 (.branch (.cons 4 (.leaf 5) (.cons 17 (.leaf 18) .nil)))
            .nil)) ∧
    readH (recursive_merge_dicts_heap mergeBugHeap [0, 2] 10).1 1
      = [(4, .hleaf 5), (17, .hleaf 18)] := by
  refine ⟨?_, rfl, ?_, ?_⟩ <;>
    simp [recursive_merge_dicts_heap, iterKPH, iterItemsH, dedupByPathH,
      addStepH, treeAtH, decodeEntriesH, mergeBugHeap, readH, writeH,
      lookupH, setKeyH, List.getD, List.set]

/-- The heap encoding of the sample tree `T`: address 0 is the root,
addresses 1-3 its sub-dicts. -/
def sampleHeap : Heap :=
  [[(1, .hleaf 2), (3, .href 1), (6, .href 2), (7, .hleaf 11)],
   [(4, .hleaf 5)],
   [(3, .href 3), (7, .hleaf 10)],
   [(7, .hleaf 8)]]

/-- `T` with `12: 13` added under the path `6 → 3`. -/
def sampleAdded : Tree :=
  .branch
    (.cons 1 (.leaf 2)
    (.cons 3 (.branch (.cons 4 (.leaf 5) .nil))
    (.cons 6 (.branch (.cons 3 (.branch (.cons 7 (.leaf 8)
                                        (.cons 12 (.leaf 13) .nil)))
                      (.cons 7 (.leaf 10) .nil)))
    (.cons 7 (.leaf 11) .nil))))

/-- C8: every operation taking an `in_place` flag (`recursive_add`,
`recursive_replace`, `recursive_remove`, `recursive_map_dict`,
`recursive_filter_dict`), called with `in_place=False` on any heap and
arguments, leaves every cell of the original heap unchanged: the deep
copy only appends fresh cells, the fresh region is closed under
references, and the walk starting from the copy's root writes and
allocates only inside the fresh region.  `recursive_add` moreover
returns a fresh root (an address at or beyond the original heap's
end), and on the spec's example the returned tree decodes to `T` with
`12: 13` added under `6 → 3` while the original `T` still decodes
unchanged. -/
theorem claim_C8_inplace_false_frame :
    (∀ (h : Heap) (a : Nat) (path : List Nat) (v : HVal) (fuel b : Nat),
        b < h.length →
        readH (recursive_add_heap h a (path, v) fuel).1 b = readH h b) ∧
    (∀ (h : Heap) (a : Nat) (path : List Nat) (v : HVal) (fuel b : Nat),
        b < h.length →
        readH (recursive_replace_heap h a (path, v) fuel).1 b = readH h b) ∧
    (∀ (h : Heap) (a : Nat) (path : List Nat) (v : HVal) (fuel b : Nat),
        b < h.length →
        readH (recursive_remove_heap h a (path, v) fuel).1 b = readH h b) ∧
    (∀ (h : Heap) (a : Nat) (f : Nat → Except Unit Nat)
        (keys : Option (List Nat)) (perm : Bool) (fuel b : Nat),
        b < h.length →
        readH (recursive_map_dict_heap h a f keys perm fuel).1 b
          = readH h b) ∧
    (∀ (h : Heap) (a : Nat) (f : Nat → Except Unit PredRes)
        (keys : Option (List Nat)) (perm : Bool) (fuel b : Nat),
        b < h.length →
        readH (recursive_filter_dict_heap h a f keys perm fuel).1 b
          = readH h b) ∧
    (∀ (h : Heap) (a : Nat) (path : List Nat) (v : HVal) (fuel : Nat),
        0 < fuel →
        ∃ c, (recursive_add_heap h a (path, v) fuel).2 = .href c ∧
          h.length ≤ c) ∧
    treeAtH 10 (recursive_add_heap sampleHeap 0 ([6, 3, 12], .hleaf 13) 10).1
        (.href 0) = sampleT ∧
    treeAtH 10 (recursive_add_heap sampleHeap 0 ([6, 3, 12], .hleaf 13) 10).1
        (recursive_add_heap sampleHeap 0 ([6, 3, 12], .hleaf 13) 10).2
      = sampleAdded := by
  have hcopy : ∀ (h : Heap) (a : Nat) (fuel : Nat),
      heapFreshInv (deepCopyH fuel h (.href a)).1 h.length ∧
        hvalGE h.length (deepCopyH fuel h (.href a)).2 = true ∧
        h.length ≤ (deepCopyH fuel h (.href a)).1.length ∧
        ∀ b, b < h.length →
          readH (deepCopyH fuel h (.href a)).1 b = readH h b := by
    intro h a fuel
    obtain ⟨hinv1, hval1⟩ :=
      deepCopyH_inv fuel h.length h (.href a) (heapFreshInv_self h)
        (Nat.le_refl _)
    obtain ⟨ext, hext⟩ := deepCopyH_extends fuel h (.href a)
    refine ⟨hinv1, hval1, by rw [hext]; simp, ?_⟩
    intro b hb
    rw [hext]
    exact readH_append_lt h ext b hb
  refine ⟨?_, ?_, ?_, ?_, ?_, ?_, ?add1, ?add2⟩
  case add1 =>
    simp [recursive_add_heap, deepCopyH, copyEntriesH, addStepH, treeAtH,
      decodeEntriesH, sampleHeap, sampleT, sampleEntries, readH, writeH,
      lookupH, setKeyH, List.getD, List.set]
  case add2 =>
    simp [recursive_add_heap, deepCopyH, copyEntriesH, addStepH, treeAtH,
      decodeEntriesH, sampleHeap, sampleAdded, readH, writeH, lookupH,
      setKeyH, List.getD, List.set]
  · intro h a path v fuel b hb
    obtain ⟨hinv1, hval1, hlen1, hread1⟩ := hcopy h a fuel
    show readH (addStepH (deepCopyH fuel h (.href a)).1
        (deepCopyH fuel h (.href a)).2 path v) b = readH h b
    rw [addStepH_frame path _ _ v h.length hinv1 hlen1 hval1 b hb]
    exact hread1 b hb
  · intro h a path v fuel b hb
    obtain ⟨hinv1, hval1, _, hread1⟩ := hcopy h a fuel
    show readH (replaceStepH (deepCopyH fuel h (.href a)).1
        (deepCopyH fuel h (.href a)).2 path v).1 b = readH h b
    rw [replaceStepH_frame path _ _ v h.length hinv1 hval1 b hb]
    exact hread1 b hb
  · intro h a path v fuel b hb
    obtain ⟨hinv1, hval1, _, hread1⟩ := hcopy h a fuel
    show readH (removeStepH fuel (deepCopyH fuel h (.href a)).1
        (deepCopyH fuel h (.href a)).2 path v).1 b = readH h b
    rw [removeStepH_frame fuel path _ _ v h.length hinv1 hval1 b hb]
    exact hread1 b hb
  · intro h a f keys perm fuel b hb
    obtain ⟨hinv1, hval1, _, hread1⟩ := hcopy h a fuel
    match hr : (deepCopyH fuel h (.href a)).2 with
    | .hleaf n =>
        have heq : (recursive_map_dict_heap h a f keys perm fuel).1
            = (deepCopyH fuel h (.href a)).1 := by
          simp [recursive_map_dict_heap, hr]
        rw [heq]
        exact hread1 b hb
    | .href c =>
        have hc : h.length ≤ c := by
          rw [hr] at hval1
          simpa [hvalGE] using hval1
        have heq : (recursive_map_dict_heap h a f keys perm fuel).1
            = (mapStepH fuel (deepCopyH fuel h (.href a)).1 f keys perm c).1 := by
          simp [recursive_map_dict_heap, hr]
        rw [heq]
        rw [(mapStepH_frame fuel h.length _ f keys perm c hinv1 hc).1 b hb]
        exact hread1 b hb
  · intro h a f keys perm fuel b hb
    obtain ⟨hinv1, hval1, _, hread1⟩ := hcopy h a fuel
    match hr : (deepCopyH fuel h (.href a)).2 with
    | .hleaf n =>
        have heq : (recursive_filter_dict_heap h a f keys perm fuel).1
            = (deepCopyH fuel h (.href a)).1 := by
          simp [recursive_filter_dict_heap, hr]
        rw [heq]
        exact hread1 b hb
    | .href c =>
        have hc : h.length ≤ c := by
          rw [hr] at hval1
          simpa [hvalGE] using hval1
        have heq : (recursive_filter_dict_heap h a f keys perm fuel).1
            = (filterStepH fuel (deepCopyH fuel h (.href a)).1 f keys perm
                c).1 := by
          simp [recursive_filter_dict_heap, hr]
        rw [heq]
        rw [(filterStepH_frame fuel h.length _ f keys perm c hinv1 hc).1 b hb]
        exact hread1 b hb
  · intro h a path v fuel hf
    match fuel, hf with
    | n + 1, _ =>
        obtain ⟨ext, hext⟩ :=
          copyEntriesH_extends n (deepCopyH_extends n) (readH h a) h
        refine ⟨(copyEntriesH n h (readH h a)).1.length, ?_, ?_⟩
        · show (deepCopyH (n + 1) h (.href a)).2 = _
          simp [deepCopyH]
        · rw [hext]
          simp

end NestDictUtils
